import Mathlib

/-!
# FileWise: a verification development

A shallow embedding of `main.go` of FileWise (a concurrent directory scanner that
emits one `FileInfo` per non-directory entry) and proofs about

* the classifier `isBinaryFromData` / `detectEncodingAndBinary`,
* the extension rule of the worker (`filepath.Ext` + `strings.TrimPrefix`),
* the body of the worker loop (its `wg.Add` / `wg.Done` discipline),
* the whole traversal as a transition system over the shared state
  (WaitGroup counter, `dirsChan`, the spawned sender goroutines, the workers,
  `results`, the slice collected by `main`).

Conventions of the embedding:

* a Go `string` / `[]byte` is a list of bytes (`List Nat`, every element below 256);
* a cleaned absolute path is the list of its components, so that
  `filepath.Join dir name` appends one component and `filepath.ToSlash` is the
  identity;
* a `float64` is the rational number it denotes; every float operation is the exact
  operation followed by IEEE-754 round-to-nearest-even (`f64round`);
* the operating system and the `chardet` library are a record `OS` of functions.
-/

namespace FileWise

/-! ## Strings and paths -/

/-- Go `string` (and `[]byte`): a sequence of bytes. -/
abbrev GoString := List Nat

/-- The bytes of an ASCII string literal. -/
def bytesOf (s : String) : GoString := s.toList.map Char.toNat

/-- Cleaned absolute path, as the list of its components. -/
abbrev Path := List GoString

/-- Go `filepath.Join(dir, name)` for a cleaned `dir` and a plain entry name. -/
def Join (dir : Path) (name : GoString) : Path := dir ++ [name]

/-- Go `filepath.ToSlash`: the separator is already the slash. -/
def ToSlash (p : Path) : Path := p

/-- Go `os.IsPathSeparator` (Unix): the byte `/`. -/
def IsPathSeparator (c : Nat) : Bool := c == 47

/-- The loop of `filepath.Ext`: `k` is `i + 1` for the loop index `i`, which runs
downwards from `len(path) - 1` while `path[i]` is not a separator. -/
def extLoop (path : GoString) : Nat → GoString
  | 0 => []
  | i + 1 =>
    match path[i]? with
    | none => []
    | some c =>
      if IsPathSeparator c then []
      else if c = 46 then path.drop i
      else extLoop path i

/-- Go `filepath.Ext`: the suffix beginning at the final dot of the final element of
`path`, empty if there is no dot. -/
def Ext (path : GoString) : GoString := extLoop path path.length

/-- Go `strings.HasPrefix`. -/
def HasPrefix (s pre : GoString) : Bool :=
  decide (pre.length ≤ s.length) && (s.take pre.length == pre)

/-- Go `strings.TrimPrefix`. -/
def TrimPrefix (s pre : GoString) : GoString :=
  if HasPrefix s pre then s.drop pre.length else s

/-- The token the worker stores in `Ext` when `filepath.Ext` is empty. -/
def blankExt : GoString := bytesOf "\x7bBLANK\x7d"

/-- Lines 142-147 of `worker`: the `Ext` field computed from the entry name. -/
def workerExt (name : GoString) : GoString :=
  let ext := Ext name
  if ext ≠ [] then TrimPrefix ext (bytesOf ".") else blankExt

/-- A byte is an upper-case ASCII letter. -/
def isUpper (c : Nat) : Bool := decide (65 ≤ c) && decide (c ≤ 90)

/-! ## float64 -/

/-- Round a rational to the nearest integer, ties to the even one. -/
def roundHalfEven (x : ℚ) : ℤ :=
  let f := ⌊x⌋
  if x - f < 1 / 2 then f
  else if 1 / 2 < x - f then f + 1
  else if f % 2 = 0 then f else f + 1

/-- IEEE-754 binary64 round-to-nearest-even of a non-negative rational below `2^1024`:
53 significant bits, exponent at least `-1022` (subnormals share the smallest
exponent). -/
def f64round (x : ℚ) : ℚ :=
  if x ≤ 0 then 0
  else
    let e := max (Int.log 2 x) (-1022)
    (roundHalfEven (x * 2 ^ (52 - e)) : ℚ) / 2 ^ (52 - e)

/-- Go `float64(n)` for a non-negative integer. -/
def f64ofInt (n : Nat) : ℚ := f64round n

/-- Go `a / b` on `float64` (non-negative operands, `b` non-zero). -/
def f64div (a b : ℚ) : ℚ := f64round (a / b)

/-- The `float64` constant `0.3`. -/
def f64const03 : ℚ := f64round (3 / 10)

/-- The `float64` constant `1024`. -/
def f64const1024 : ℚ := f64round 1024

/-! ## The classifier -/

/-- The test of check 2 in `isBinaryFromData`. -/
def nonPrintableByte (b : Nat) : Bool :=
  (decide (b < 32) || decide (b > 126)) && b != 9 && b != 10 && b != 13

/-- Go `isBinaryFromData`. -/
def isBinaryFromData (data : List Nat) : Bool :=
  if data.any (fun b => b == 0) then true
  else
    let nonPrintable := data.countP nonPrintableByte
    if decide (data.length > 0) &&
        decide (f64div (f64ofInt nonPrintable) (f64ofInt data.length) > f64const03) then true
    else false

/-- The bytes the specification counts: outside `[32,126]` and not 9, 10 or 13. -/
def specNonPrintable (b : Nat) : Bool :=
  decide (¬ (32 ≤ b ∧ b ≤ 126) ∧ b ≠ 9 ∧ b ≠ 10 ∧ b ≠ 13)

/-- The specification of the binary test: a zero byte, or strictly more than 30% of
the bytes counted by `specNonPrintable`. -/
def specIsBinary (data : List Nat) : Prop :=
  0 ∈ data ∨ 10 * data.countP specNonPrintable > 3 * data.length

/-- Error result of `(*os.File).Read`. -/
inductive ReadErr where
  | ok
  | EOF
  | fail
  deriving DecidableEq, Repr

/-- The part of `os.FileMode` the worker looks at. -/
structure FileMode where
  symlink : Bool
  deriving DecidableEq, Repr

/-- Go `os.DirEntry`: `Name()`, `IsDir()` and `Info()` (`none` is an error). -/
structure DirEntry where
  Name : GoString
  IsDir : Bool
  Info : Option FileMode
  deriving DecidableEq, Repr

/-- The operating system and the charset guesser, as seen by the program. `none` is
an error result. `Read p` is the result of the first `Read` into a 1024-byte buffer
on the file opened at `p`. -/
structure OS where
  ReadDir : Path → Option (List DirEntry)
  EvalSymlinks : Path → Option Path
  Stat : Path → Option Nat
  Open : Path → Bool
  Read : Path → List Nat × ReadErr
  DetectBest : List Nat → Option GoString

/-- Go `getFileSize`: kilobytes, or an error. -/
def getFileSize (os : OS) (filePath : Path) : Option ℚ :=
  match os.Stat filePath with
  | none => none
  | some size => some (f64div (f64ofInt size) f64const1024)

/-- The three results of `detectEncodingAndBinary`. -/
structure Detected where
  encoding : GoString
  binary : Bool
  err : Bool
  deriving DecidableEq, Repr

/-- Go `detectEncodingAndBinary`. -/
def detectEncodingAndBinary (os : OS) (filePath : Path) : Detected :=
  if !os.Open filePath then ⟨[], false, true⟩
  else
    let r := os.Read filePath
    if r.2 = ReadErr.fail then ⟨[], false, true⟩
    else
      let data := r.1.take 1024
      match os.DetectBest data with
      | none => ⟨[], false, true⟩
      | some charset => ⟨charset, isBinaryFromData data, false⟩

/-! ## The worker -/

/-- Go `FileInfo`. -/
structure FileInfo where
  Name : GoString
  Path : Path
  Size : ℚ
  Ext : GoString
  Encoding : GoString
  IsBinary : Bool
  deriving DecidableEq, Repr

/-- The operations of a worker that other goroutines can observe. -/
inductive Op where
  | log
  | wgAdd
  | go (subDir : Path)
  | emit (fi : FileInfo)
  | wgDone
  deriving DecidableEq, Repr

/-- Lines 134-156 of `worker`: classification with fallback, extension, send. -/
def emitRecord (os : OS) (entryName : GoString) (fullPath : Path) (size : ℚ) : List Op :=
  let d := detectEncodingAndBinary os fullPath
  let encoding := if d.err then bytesOf "unknown" else d.encoding
  let binary := if d.err then false else d.binary
  (if d.err then [Op.log] else []) ++
    [Op.emit
      { Name := entryName
        Path := ToSlash fullPath
        Size := size
        Ext := workerExt entryName
        Encoding := encoding
        IsBinary := binary }]

/-- The body of the inner loop of `worker` (lines 105-157) for one entry. -/
def entryOps (os : OS) (dir : Path) (entry : DirEntry) : List Op :=
  let fullPath := Join dir entry.Name
  if entry.IsDir then [Op.wgAdd, Op.go fullPath]
  else
    match entry.Info with
    | none => [Op.log]
    | some info =>
      if info.symlink then
        match os.EvalSymlinks fullPath with
        | none => [Op.log]
        | some resolved =>
          match getFileSize os resolved with
          | none => [Op.log]
          | some size => emitRecord os entry.Name resolved size
      else
        match getFileSize os fullPath with
        | none => [Op.log]
        | some size => emitRecord os entry.Name fullPath size

/-- The body of the outer loop of `worker` (lines 97-159) for one dequeued `dir`. -/
def loopBody (os : OS) (dir : Path) : List Op :=
  match os.ReadDir dir with
  | none => [Op.log, Op.wgDone]
  | some entries => entries.flatMap (entryOps os dir) ++ [Op.wgDone]

/-- Change of the WaitGroup counter made by one operation. -/
def wgDelta : Op → Int
  | Op.wgAdd => 1
  | Op.wgDone => -1
  | _ => 0

/-- The path on which the worker calls `getFileSize` and `detectEncodingAndBinary`
for a non-directory entry: the joined path, or what the symlink resolves to. -/
def Resolves (os : OS) (dir : Path) (entry : DirEntry) (p : Path) : Prop :=
  ∃ info, entry.Info = some info ∧
    ((info.symlink = false ∧ p = Join dir entry.Name) ∨
     (info.symlink = true ∧ os.EvalSymlinks (Join dir entry.Name) = some p))

/-- The subdirectory entries of the listing of `dir` (none when the listing fails). -/
def subdirsOf (os : OS) (dir : Path) : List DirEntry :=
  match os.ReadDir dir with
  | none => []
  | some entries => entries.filter (fun e => e.IsDir)

/-- The paths handed to `go func(subDir)` among some operations, in order. -/
def spawned (ops : List Op) : List Path :=
  ops.filterMap (fun op => match op with
    | Op.go p => some p
    | _ => none)

/-! ## The traversal as a transition system -/

/-- Go `numWorkers`. -/
def numWorkers : Nat := 50

/-- Capacity of `dirsChan` and of `results`. -/
def chanCap : Nat := 10000

/-- Shared state of the program after `main` has started the goroutines.
`workers[w]` is what is left of the loop body of worker `w` (`[]`: it waits at
`range dirsChan`); `senders` are the started `go func(subDir)` whose send has not
completed; `closer` is the position of the closing goroutine (0: in `wg.Wait`,
1: `Wait` returned, 2: `dirsChan` closed, 3: `results` closed). -/
structure State where
  counter : Int
  dirsChan : List Path
  senders : List Path
  workers : List (List Op)
  results : List FileInfo
  files : List FileInfo
  closer : Nat
  panicked : Bool
  deriving DecidableEq, Repr

/-- State after `wg.Add(1); dirsChan <- absPath` and the start of the goroutines. -/
def initState (absPath : Path) : State :=
  { counter := 1
    dirsChan := [absPath]
    senders := []
    workers := List.replicate numWorkers []
    results := []
    files := []
    closer := 0
    panicked := false }

/-- One atomic step of one goroutine. -/
inductive Action where
  | recv (w : Nat)
  | exec (w : Nat)
  | send (k : Nat)
  | wait
  | closeDirs
  | closeResults
  | collect
  deriving DecidableEq, Repr

/-- Effect of one worker operation on the shared state; `none` when it blocks. -/
def applyOp (s : State) : Op → Option State
  | Op.log => some s
  | Op.wgAdd => some { s with counter := s.counter + 1 }
  | Op.go subDir => some { s with senders := s.senders ++ [subDir] }
  | Op.emit fi =>
    if 3 ≤ s.closer then some { s with panicked := true }
    else if s.results.length < chanCap then some { s with results := s.results ++ [fi] }
    else none
  | Op.wgDone =>
    if s.counter - 1 < 0 then some { s with panicked := true }
    else some { s with counter := s.counter - 1 }

/-- The step function; `none` when the action is not enabled (the goroutine is
blocked, or the program has panicked). -/
def step (os : OS) (s : State) (a : Action) : Option State :=
  if s.panicked then none
  else
    match a with
    | Action.recv w =>
      match s.workers[w]?, s.dirsChan with
      | some [], dir :: rest =>
        some { s with dirsChan := rest, workers := s.workers.set w (loopBody os dir) }
      | _, _ => none
    | Action.exec w =>
      match s.workers[w]? with
      | some (op :: rest) =>
        match applyOp s op with
        | none => none
        | some s1 => some { s1 with workers := s1.workers.set w rest }
      | _ => none
    | Action.send k =>
      match s.senders[k]? with
      | none => none
      | some subDir =>
        if 2 ≤ s.closer then some { s with panicked := true }
        else if s.dirsChan.length < chanCap then
          some { s with dirsChan := s.dirsChan ++ [subDir], senders := s.senders.eraseIdx k }
        else none
    | Action.wait =>
      if s.closer = 0 ∧ s.counter = 0 then some { s with closer := 1 } else none
    | Action.closeDirs =>
      if s.closer = 1 then some { s with closer := 2 } else none
    | Action.closeResults =>
      if s.closer = 2 then some { s with closer := 3 } else none
    | Action.collect =>
      match s.results with
      | fi :: rest => some { s with results := rest, files := s.files ++ [fi] }
      | [] => none

/-- A worker executes operations one after the other with no other goroutine in
between. -/
def runOps : State → List Op → Option State
  | s, [] => some s
  | s, op :: ops =>
    match applyOp s op with
    | none => none
    | some s1 => runOps s1 ops

/-- Run a schedule (a list of actions) from a state. -/
def run (os : OS) : State → List Action → Option State
  | s, [] => some s
  | s, a :: as =>
    match step os s a with
    | none => none
    | some s1 => run os s1 as

/-- The loop `for file := range results` of `main` has ended. -/
def mainDone (s : State) : Prop := s.closer = 3 ∧ s.results = []

/-- Every worker is between two tasks. -/
def allIdle (s : State) : Prop := ∀ ops ∈ s.workers, ops = []

/-! ## Directory trees -/

/-- The listing of a directory: its entries in listing order, each a subdirectory
with its own listing or a non-directory object that is not a symlink: a regular file
when `regular` holds, otherwise a device node, named pipe or socket; `content` is
what reading it returns. -/
inductive Listing where
  | nil
  | file (name : GoString) (regular : Bool) (content : List Nat) (rest : Listing)
  | dir (name : GoString) (sub : Listing) (rest : Listing)
  deriving DecidableEq, Repr

/-- What a path names: a non-directory object with the bytes a read returns, or a
directory with its listing. -/
inductive Node where
  | isFile (content : List Nat)
  | isDir (l : Listing)
  deriving DecidableEq, Repr

namespace Listing

/-- Names of the entries of a listing. -/
def names : Listing → List GoString
  | nil => []
  | file n _ _ rest => n :: names rest
  | dir n _ rest => n :: names rest

/-- No two entries of one directory share a name, at every level. -/
def WF : Listing → Prop
  | nil => True
  | file n _ _ rest => n ∉ names rest ∧ WF rest
  | dir n sub rest => n ∉ names rest ∧ WF sub ∧ WF rest

/-- The entries `os.ReadDir` returns. -/
def entries : Listing → List DirEntry
  | nil => []
  | file n _ _ rest => ⟨n, false, some ⟨false⟩⟩ :: entries rest
  | dir n _ rest => ⟨n, true, some ⟨false⟩⟩ :: entries rest

/-- The entry called `name`. -/
def child (name : GoString) : Listing → Option Node
  | nil => none
  | file n _ c rest => if n = name then some (Node.isFile c) else child name rest
  | dir n sub rest => if n = name then some (Node.isDir sub) else child name rest

/-- The node at a path relative to the directory with this listing. -/
def walk (l : Listing) : Path → Option Node
  | [] => some (Node.isDir l)
  | n :: ns =>
    match l.child n with
    | none => none
    | some (Node.isFile c) => if ns = [] then some (Node.isFile c) else none
    | some (Node.isDir sub) => walk sub ns

/-- Paths of the regular files reachable from the directory `d` with this listing. -/
def allFiles (d : Path) : Listing → List Path
  | nil => []
  | file n regular _ rest => if regular then Join d n :: allFiles d rest else allFiles d rest
  | dir n sub rest => allFiles (Join d n) sub ++ allFiles d rest

/-- Paths of all non-directory entries (regular files, device nodes, pipes, sockets)
reachable from the directory `d` with this listing. -/
def allNonDirs (d : Path) : Listing → List Path
  | nil => []
  | file n _ _ rest => Join d n :: allNonDirs d rest
  | dir n sub rest => allNonDirs (Join d n) sub ++ allNonDirs d rest

/-- Every non-directory entry of the tree is a regular file. -/
def onlyRegular : Listing → Prop
  | nil => True
  | file _ regular _ rest => regular = true ∧ onlyRegular rest
  | dir _ sub rest => onlyRegular sub ∧ onlyRegular rest

end Listing

/-- The part of `p` below `root`, when `p` is at or below `root`. -/
def relOf (root p : Path) : Option Path :=
  if root.isPrefixOf p then some (p.drop root.length) else none

/-- The node the path `p` names in the tree with listing `t` at `root`. -/
def nodeAt (root : Path) (t : Listing) (p : Path) : Option Node :=
  match relOf root p with
  | none => none
  | some rel => t.walk rel

/-- The operating system over a tree without symlinks rooted at `root`, in which
every listing, stat, open and read of an existing object succeeds; `detect` is the
charset guesser. -/
def treeOS (root : Path) (t : Listing) (detect : List Nat → Option GoString) : OS :=
  { ReadDir := fun p =>
      match nodeAt root t p with
      | some (Node.isDir l) => some l.entries
      | _ => none
    EvalSymlinks := fun p => some p
    Stat := fun p =>
      match nodeAt root t p with
      | some (Node.isFile c) => some c.length
      | some (Node.isDir _) => some 4096
      | none => none
    Open := fun p => (nodeAt root t p).isSome
    Read := fun p =>
      match nodeAt root t p with
      | some (Node.isFile c) => (c.take 1024, if c = [] then ReadErr.EOF else ReadErr.ok)
      | _ => ([], ReadErr.fail)
    DetectBest := detect }

/-! ## Bookkeeping of the traversal -/

/-- A state is reachable when some schedule leads to it from the initial state. -/
def Reachable (os : OS) (absPath : Path) (s : State) : Prop :=
  ∃ acts, run os (initState absPath) acts = some s

/-- What an operation still owes to the counter: a pending `wgDone` and a pending
`go` (whose child was already added) count 1, a pending `wgAdd` counts -1. -/
def opWeight : Op → Int
  | Op.wgDone => 1
  | Op.go _ => 1
  | Op.wgAdd => -1
  | _ => 0

/-- The share of the counter held by a worker with these operations left. -/
def weight (ops : List Op) : Int := (ops.map opWeight).sum

/-- The non-empty suffixes of loop bodies: they end with the only `wgDone`, and a
`wgAdd` is always followed by its `go`. -/
inductive BodyTail : List Op → Prop where
  | done : BodyTail [Op.wgDone]
  | log {r : List Op} : BodyTail r → BodyTail (Op.log :: r)
  | emit {r : List Op} (fi : FileInfo) : BodyTail r → BodyTail (Op.emit fi :: r)
  | go {r : List Op} (p : Path) : BodyTail r → BodyTail (Op.go p :: r)
  | addGo {r : List Op} (p : Path) : BodyTail r → BodyTail (Op.wgAdd :: Op.go p :: r)

/-- The invariant that ties the counter to the outstanding work. -/
structure CounterInv (s : State) : Prop where
  notPanicked : s.panicked = false
  tails : ∀ ops ∈ s.workers, ops = [] ∨ BodyTail ops
  count : s.counter = (s.dirsChan.length : Int) + s.senders.length + (s.workers.map weight).sum
  closing : 1 ≤ s.closer → s.counter = 0
  closerLe : s.closer ≤ 3
  pool : s.workers.length = numWorkers

/-- The non-directory entries at or below the directory `p` of the tree (none when
`p` is not a directory of the tree). -/
def under (root : Path) (t : Listing) (p : Path) : List Path :=
  match nodeAt root t p with
  | some (Node.isDir l) => l.allNonDirs p
  | _ => []

/-- The file paths an operation still stands for: the record it sends, or the files
below the directory it hands over. -/
def opPaths (root : Path) (t : Listing) : Op → List Path
  | Op.emit fi => [fi.Path]
  | Op.go p => under root t p
  | _ => []

/-- The file paths the operations left to a worker stand for. -/
def opsPaths (root : Path) (t : Listing) (ops : List Op) : List Path :=
  ops.flatMap (opPaths root t)

/-- All file paths the state accounts for: collected, buffered in `results`, below a
queued or handed-over directory, or still to be produced by a worker. -/
def outstanding (root : Path) (t : Listing) (s : State) : Multiset Path :=
  (↑(s.files.map (fun fi => fi.Path)) : Multiset Path) + ↑(s.results.map (fun fi => fi.Path)) +
    ↑(s.dirsChan.flatMap (under root t)) + ↑(s.senders.flatMap (under root t)) +
    ↑(s.workers.flatMap (opsPaths root t))

/-- A bound on the number of steps the program spends on a directory with this
listing once a worker has dequeued it (3 per file: log, send, collect; 4 per
subdirectory: add, go, send to the queue, dequeue; 1 for `wg.Done`). -/
def Listing.work : Listing → Nat
  | Listing.nil => 1
  | Listing.file _ _ _ rest => 3 + Listing.work rest
  | Listing.dir _ sub rest => 4 + Listing.work sub + Listing.work rest

/-- The bound for the directory at path `p` (2 when the listing fails: log, done). -/
def workUnder (root : Path) (t : Listing) (p : Path) : Nat :=
  match nodeAt root t p with
  | some (Node.isDir l) => l.work
  | _ => 2

/-- The steps an operation still causes. -/
def opCost (root : Path) (t : Listing) : Op → Nat
  | Op.emit _ => 2
  | Op.go p => 3 + workUnder root t p
  | _ => 1

/-- The steps the operations left to a worker still cause. -/
def opsCost (root : Path) (t : Listing) (ops : List Op) : Nat :=
  (ops.map (opCost root t)).sum

/-- A bound on the number of steps left from a state. -/
def stepsLeft (root : Path) (t : Listing) (s : State) : Nat :=
  (s.dirsChan.map (fun p => 1 + workUnder root t p)).sum +
    (s.senders.map (fun p => 2 + workUnder root t p)).sum +
    (s.workers.map (opsCost root t)).sum + s.results.length + (3 - s.closer)

/-- A tree whose root holds one empty subdirectory `sub`. -/
def oneDirTree : Listing := Listing.dir (bytesOf "sub") Listing.nil Listing.nil

/-- The counter, the queue, the pending senders, and whether every worker is idle. -/
structure Snapshot where
  counter : Int
  dirsChan : List Path
  senders : List Path
  idle : Bool
  deriving DecidableEq, Repr

/-- The snapshot of a state. -/
def snapshot (s : State) : Snapshot :=
  { counter := s.counter
    dirsChan := s.dirsChan
    senders := s.senders
    idle := s.workers.all (fun ops => ops.isEmpty) }

/-! ## A small concrete tree -/

/-- A guesser that answers `UTF-8` on bytes below 128 and fails otherwise. -/
def demoDetect (data : List Nat) : Option GoString :=
  if data.all (fun b => decide (b < 128)) then some (bytesOf "UTF-8") else none

/-- Root of the concrete tree: `/srv`. -/
def demoRoot : Path := [bytesOf "srv"]

/-- The tree `/srv`: `README`, `PHOTO.JPG`, `.gitignore`, `raw.bin` (bytes 0, 255),
`zero.dat` (bytes 0, 65) and `sub/` with `report.tar.gz`. -/
def demoTree : Listing :=
  Listing.file (bytesOf "README") true [104, 105, 10]
    (Listing.file (bytesOf "PHOTO.JPG") true [74, 80, 71, 10]
      (Listing.file (bytesOf ".gitignore") true [42, 10]
        (Listing.file (bytesOf "raw.bin") true [0, 255]
          (Listing.file (bytesOf "zero.dat") true [0, 65]
            (Listing.dir (bytesOf "sub")
              (Listing.file (bytesOf "report.tar.gz") true [31, 65, 66, 67] Listing.nil)
              Listing.nil)))))

/-- The operating system over the concrete tree. -/
def demoOS : OS := treeOS demoRoot demoTree demoDetect

/-- A complete schedule on the concrete tree: worker 0 takes `/srv` and works through
its listing while `main` collects, the sender goroutine enqueues `/srv/sub`, worker 1
takes it, the closing goroutine closes both channels, `main` collects the rest. -/
def demoSchedule : List Action :=
  [Action.recv 0, Action.exec 0, Action.exec 0, Action.collect, Action.exec 0, Action.exec 0,
    Action.exec 0, Action.exec 0, Action.exec 0, Action.exec 0, Action.send 0, Action.recv 1,
    Action.collect, Action.exec 0, Action.exec 1, Action.exec 1, Action.wait, Action.collect,
    Action.closeDirs, Action.closeResults, Action.collect, Action.collect, Action.collect]

/-- Whether `main` has left its collecting loop, and the paths it has collected. -/
def outcome (s : State) : Bool × List Path :=
  (decide (s.closer = 3) && s.results.isEmpty, s.files.map (fun fi => fi.Path))

/-- The tree `/srv` with the regular file `a.txt` and the device node `null`, whose
stat, open and read succeed (a read returns no bytes and EOF). -/
def deviceTree : Listing :=
  Listing.file (bytesOf "a.txt") true [104, 105]
    (Listing.file (bytesOf "null") false [] Listing.nil)

/-- A complete schedule on `deviceTree`: worker 0 takes `/srv`, sends one record per
entry and calls `Done`; the channels are closed; `main` collects both records. -/
def deviceSchedule : List Action :=
  [Action.recv 0, Action.exec 0, Action.exec 0, Action.exec 0, Action.wait, Action.closeDirs,
    Action.closeResults, Action.collect, Action.collect]

/-- A regular-file entry called `name`. -/
def fileEntry (name : GoString) : DirEntry := ⟨name, false, some ⟨false⟩⟩

/-- The record the worker sends for the file `name` of `/srv` whose content is
`content`, when the guesser answers `enc`. -/
def demoRecord (dir : Path) (name : String) (content : List Nat) (ext enc : String) : FileInfo :=
  { Name := bytesOf name
    Path := dir ++ [bytesOf name]
    Size := f64div (f64ofInt content.length) f64const1024
    Ext := bytesOf ext
    Encoding := bytesOf enc
    IsBinary := isBinaryFromData content }

/-- The `Ext` fields of the records among some operations. -/
def emittedExts (ops : List Op) : List GoString :=
  ops.filterMap (fun op => match op with
    | Op.emit fi => some fi.Ext
    | _ => none)

/-- The `IsBinary` fields of the records among some operations. -/
def emittedBinary (ops : List Op) : List Bool :=
  ops.filterMap (fun op => match op with
    | Op.emit fi => some fi.IsBinary
    | _ => none)

/-- The records among some operations. -/
def emitted (ops : List Op) : List FileInfo :=
  ops.filterMap (fun op => match op with
    | Op.emit fi => some fi
    | _ => none)

/-! ## The extension rule -/

theorem bytesOf_dot : bytesOf "." = [46] := by decide

theorem extLoop_no_dot (path : GoString) (h : ∀ c ∈ path, c ≠ 46) :
    ∀ k, extLoop path k = [] := by
  intro k
  induction k with
  | zero => rfl
  | succ i ih =>
    unfold extLoop
    cases hc : path[i]? with
    | none => rfl
    | some c =>
      have hmem : c ∈ path := List.mem_iff_getElem?.2 ⟨i, hc⟩
      simp [h c hmem, ih]

theorem extLoop_last_dot (pre suf : GoString) (hs : ∀ c ∈ suf, c ≠ 46 ∧ c ≠ 47) :
    ∀ k, k ≤ suf.length → extLoop (pre ++ 46 :: suf) (pre.length + 1 + k) = 46 :: suf := by
  intro k
  induction k with
  | zero =>
    intro _
    show extLoop (pre ++ 46 :: suf) (pre.length + 1) = 46 :: suf
    unfold extLoop
    have hget : (pre ++ 46 :: suf)[pre.length]? = some 46 := by
      rw [List.getElem?_append_right (le_refl _)]; simp
    simp only [hget]
    simp [IsPathSeparator]
  | succ k ih =>
    intro hk
    show extLoop (pre ++ 46 :: suf) ((pre.length + 1 + k) + 1) = 46 :: suf
    unfold extLoop
    have hlt : k < suf.length := hk
    have hget : (pre ++ 46 :: suf)[pre.length + 1 + k]? = some suf[k] := by
      rw [List.getElem?_append_right (by omega)]
      have : pre.length + 1 + k - pre.length = k + 1 := by omega
      rw [this]
      simp [hlt]
    have hc := hs suf[k] (List.getElem_mem hlt)
    simp only [hget]
    simp [IsPathSeparator, hc.1, hc.2, ih (by omega)]

theorem Ext_no_dot (name : GoString) (h : 46 ∉ name) : Ext name = [] :=
  extLoop_no_dot name (fun _ hc heq => h (heq ▸ hc)) _

theorem Ext_last_dot (pre suf : GoString) (hdot : 46 ∉ suf) (hsep : 47 ∉ suf) :
    Ext (pre ++ 46 :: suf) = 46 :: suf := by
  have h := extLoop_last_dot pre suf
    (fun _ hc => ⟨fun heq => hdot (heq ▸ hc), fun heq => hsep (heq ▸ hc)⟩) suf.length le_rfl
  unfold Ext
  have hl : (pre ++ 46 :: suf).length = pre.length + 1 + suf.length := by
    simp; omega
  rw [hl]; exact h

theorem workerExt_no_dot (name : GoString) (h : 46 ∉ name) : workerExt name = blankExt := by
  simp [workerExt, Ext_no_dot name h]

theorem workerExt_last_dot (pre suf : GoString) (hdot : 46 ∉ suf) (hsep : 47 ∉ suf) :
    workerExt (pre ++ 46 :: suf) = suf := by
  simp [workerExt, Ext_last_dot pre suf hdot hsep, TrimPrefix, HasPrefix, bytesOf_dot]

/-- Every name either has no dot or splits at its last dot. -/
theorem split_last_dot (name : GoString) :
    46 ∉ name ∨ ∃ pre suf, name = pre ++ 46 :: suf ∧ 46 ∉ suf := by
  induction name with
  | nil => left; simp
  | cons c rest ih =>
    rcases ih with h | ⟨pre, suf, hn, hs⟩
    · by_cases hc : c = 46
      · right; exact ⟨[], rest, by simp [hc], h⟩
      · left
        intro hm
        rcases List.mem_cons.1 hm with h1 | h1
        · exact hc h1.symm
        · exact h h1
    · right; exact ⟨c :: pre, suf, by simp [hn], hs⟩

/-- The records a worker sends for an entry carry the entry name and the extension
computed from it. -/
theorem emit_mem_emitRecord {os : OS} {name : GoString} {p : Path} {size : ℚ} {fi : FileInfo}
    (h : Op.emit fi ∈ emitRecord os name p size) :
    fi.Name = name ∧ fi.Ext = workerExt name ∧ fi.Path = p ∧ fi.Size = size := by
  unfold emitRecord at h
  simp only [List.mem_append, List.mem_singleton] at h
  rcases h with h | h
  · split at h <;> simp at h
  · injection h with h
    subst h
    exact ⟨rfl, rfl, rfl, rfl⟩

theorem emit_mem_entryOps {os : OS} {dir : Path} {entry : DirEntry} {fi : FileInfo}
    (h : Op.emit fi ∈ entryOps os dir entry) :
    fi.Name = entry.Name ∧ fi.Ext = workerExt entry.Name := by
  unfold entryOps at h
  dsimp only at h
  repeat' split at h
  all_goals first
    | exact ⟨(emit_mem_emitRecord h).1, (emit_mem_emitRecord h).2.1⟩
    | simp at h

/-! ### Claims C7 - C10 -/

/-- Claim C7 fails as stated: for the dot-free name `README` the record sent by the
worker has `Ext` equal to the token written in the source, which is not
`EXTENSIONLESS`. -/
theorem C7_counterexample :
    46 ∉ bytesOf "README" ∧
    emittedExts (entryOps demoOS demoRoot (fileEntry (bytesOf "README")))
      = [bytesOf "\x7bBLANK\x7d"] ∧
    bytesOf "\x7bBLANK\x7d" ≠ bytesOf "EXTENSIONLESS" := by
  decide

/-- Claim C7 (amended): for every entry name that contains no dot, the `Ext` field of
the record the worker sends is the token of line 146 of `main.go`. -/
theorem C7_ext_no_dot (os : OS) (dir : Path) (entry : DirEntry) (fi : FileInfo)
    (h : Op.emit fi ∈ entryOps os dir entry) (hdot : 46 ∉ entry.Name) :
    fi.Ext = bytesOf "\x7bBLANK\x7d" := by
  rw [(emit_mem_entryOps h).2, workerExt_no_dot _ hdot]
  rfl

/-- The amended claim C7 at the entry `README` of the concrete tree. -/
theorem C7_ext_no_dot_witness :
    Op.emit (demoRecord demoRoot "README" [104, 105, 10] "\x7bBLANK\x7d" "UTF-8")
        ∈ entryOps demoOS demoRoot (fileEntry (bytesOf "README")) ∧
      46 ∉ (fileEntry (bytesOf "README")).Name ∧
      (demoRecord demoRoot "README" [104, 105, 10] "\x7bBLANK\x7d" "UTF-8").Ext
        = bytesOf "\x7bBLANK\x7d" :=
  have h1 : Op.emit (demoRecord demoRoot "README" [104, 105, 10] "\x7bBLANK\x7d" "UTF-8")
      ∈ entryOps demoOS demoRoot (fileEntry (bytesOf "README")) := List.Mem.head _
  have h2 : 46 ∉ (fileEntry (bytesOf "README")).Name := by decide
  ⟨h1, h2, C7_ext_no_dot _ _ _ _ h1 h2⟩

/-- Claim C8: when the last dot of an entry name is neither its first nor its last
byte, the `Ext` field of the record the worker sends is exactly the text after that
dot; it does not start with a dot and contains none. Entry names returned by
`os.ReadDir` contain no path separator. -/
theorem C8_ext_after_last_dot (os : OS) (dir : Path) (entry : DirEntry) (fi : FileInfo)
    (pre suf : GoString)
    (h : Op.emit fi ∈ entryOps os dir entry)
    (hname : entry.Name = pre ++ 46 :: suf) (hlast : 46 ∉ suf)
    (_hpre : pre ≠ []) (hsuf : suf ≠ []) (hsep : 47 ∉ entry.Name) :
    fi.Ext = suf ∧ fi.Ext ≠ [] ∧ fi.Ext.head? ≠ some 46 ∧ 46 ∉ fi.Ext := by
  have hsep2 : 47 ∉ suf := fun hm => hsep (by rw [hname]; simp [hm])
  have hext : fi.Ext = suf := by
    rw [(emit_mem_entryOps h).2, hname, workerExt_last_dot pre suf hlast hsep2]
  refine ⟨hext, by rw [hext]; exact hsuf, ?_, by rw [hext]; exact hlast⟩
  rw [hext]
  intro hh
  exact hlast (List.mem_of_mem_head? hh)

/-- Claim C8 at the entry `report.tar.gz` of `/srv/sub`: its `Ext` is `gz`. -/
theorem C8_ext_after_last_dot_witness :
    Op.emit (demoRecord (demoRoot ++ [bytesOf "sub"]) "report.tar.gz" [31, 65, 66, 67] "gz" "UTF-8")
        ∈ entryOps demoOS (demoRoot ++ [bytesOf "sub"]) (fileEntry (bytesOf "report.tar.gz")) ∧
      (demoRecord (demoRoot ++ [bytesOf "sub"]) "report.tar.gz" [31, 65, 66, 67] "gz" "UTF-8").Ext
        = bytesOf "gz" :=
  have h1 : Op.emit
      (demoRecord (demoRoot ++ [bytesOf "sub"]) "report.tar.gz" [31, 65, 66, 67] "gz" "UTF-8")
      ∈ entryOps demoOS (demoRoot ++ [bytesOf "sub"]) (fileEntry (bytesOf "report.tar.gz")) :=
    List.Mem.head _
  ⟨h1, (C8_ext_after_last_dot demoOS _ (fileEntry (bytesOf "report.tar.gz")) _
    (bytesOf "report.tar") (bytesOf "gz") h1 (by decide) (by decide) (by decide) (by decide)
    (by decide)).1⟩

/-- Claim C9 fails as stated: the record for `PHOTO.JPG` has `Ext` equal to `JPG`,
which is not the token for a missing extension and contains upper-case letters;
the same name in lower case gets `jpg`, a different `Ext`. -/
theorem C9_counterexample :
    emittedExts (entryOps demoOS demoRoot (fileEntry (bytesOf "PHOTO.JPG"))) = [bytesOf "JPG"] ∧
    bytesOf "JPG" ≠ blankExt ∧
    (bytesOf "JPG").any isUpper = true ∧
    workerExt (bytesOf "photo.jpg") = bytesOf "jpg" ∧
    workerExt (bytesOf "PHOTO.JPG") ≠ workerExt (bytesOf "photo.jpg") := by
  decide

/-- Claim C9 (amended): for every entry name (free of path separators) the `Ext` field
of the record the worker sends is either the token for a missing extension, when the
name has no dot, or the bytes of the name after its last dot, unchanged: no case
conversion is applied, so `Ext` has an upper-case letter exactly when that part of
the name has one. -/
theorem C9_ext_verbatim (os : OS) (dir : Path) (entry : DirEntry) (fi : FileInfo)
    (h : Op.emit fi ∈ entryOps os dir entry) (hsep : 47 ∉ entry.Name) :
    (46 ∉ entry.Name ∧ fi.Ext = blankExt) ∨
    (∃ pre suf, entry.Name = pre ++ 46 :: suf ∧ 46 ∉ suf ∧ fi.Ext = suf ∧
      (fi.Ext.any isUpper = suf.any isUpper)) := by
  rcases split_last_dot entry.Name with hno | ⟨pre, suf, hname, hlast⟩
  · left
    exact ⟨hno, by rw [(emit_mem_entryOps h).2, workerExt_no_dot _ hno]⟩
  · right
    have hsep2 : 47 ∉ suf := fun hm => hsep (by rw [hname]; simp [hm])
    have hext : fi.Ext = suf := by
      rw [(emit_mem_entryOps h).2, hname, workerExt_last_dot pre suf hlast hsep2]
    exact ⟨pre, suf, hname, hlast, hext, by rw [hext]⟩

/-- The amended claim C9 at the entry `PHOTO.JPG` of the concrete tree. -/
theorem C9_ext_verbatim_witness :
    Op.emit (demoRecord demoRoot "PHOTO.JPG" [74, 80, 71, 10] "JPG" "UTF-8")
        ∈ entryOps demoOS demoRoot (fileEntry (bytesOf "PHOTO.JPG")) ∧
      47 ∉ (fileEntry (bytesOf "PHOTO.JPG")).Name ∧
      ((46 ∉ (fileEntry (bytesOf "PHOTO.JPG")).Name ∧
          (demoRecord demoRoot "PHOTO.JPG" [74, 80, 71, 10] "JPG" "UTF-8").Ext = blankExt) ∨
        (∃ pre suf, (fileEntry (bytesOf "PHOTO.JPG")).Name = pre ++ 46 :: suf ∧ 46 ∉ suf ∧
          (demoRecord demoRoot "PHOTO.JPG" [74, 80, 71, 10] "JPG" "UTF-8").Ext = suf ∧
          ((demoRecord demoRoot "PHOTO.JPG" [74, 80, 71, 10] "JPG" "UTF-8").Ext.any isUpper
            = suf.any isUpper))) :=
  have h1 : Op.emit (demoRecord demoRoot "PHOTO.JPG" [74, 80, 71, 10] "JPG" "UTF-8")
      ∈ entryOps demoOS demoRoot (fileEntry (bytesOf "PHOTO.JPG")) := List.Mem.head _
  have h2 : 47 ∉ (fileEntry (bytesOf "PHOTO.JPG")).Name := by decide
  ⟨h1, h2, C9_ext_verbatim _ _ _ _ h1 h2⟩

/-- Claim C10 fails as stated: the record for `.gitignore` has `Ext` equal to
`gitignore`, the text after the leading dot; it is neither empty nor the token for a
missing extension. -/
theorem C10_counterexample :
    emittedExts (entryOps demoOS demoRoot (fileEntry (bytesOf ".gitignore")))
      = [bytesOf "gitignore"] ∧
    bytesOf "gitignore" ≠ [] ∧ bytesOf "gitignore" ≠ blankExt := by
  decide

/-- Claim C10 (amended): for every entry name whose only dot is its first byte, the
`Ext` field of the record the worker sends is the text after that leading dot
(`filepath.Ext` returns the whole name, and the worker trims the dot). -/
theorem C10_ext_leading_dot (os : OS) (dir : Path) (entry : DirEntry) (fi : FileInfo)
    (rest : GoString)
    (h : Op.emit fi ∈ entryOps os dir entry)
    (hname : entry.Name = 46 :: rest) (hdot : 46 ∉ rest) (hsep : 47 ∉ entry.Name) :
    fi.Ext = rest := by
  have hsep2 : 47 ∉ rest := fun hm => hsep (by rw [hname]; simp [hm])
  have hw := workerExt_last_dot [] rest hdot hsep2
  simp only [List.nil_append] at hw
  rw [(emit_mem_entryOps h).2, hname, hw]

/-- The amended claim C10 at the entry `.gitignore` of the concrete tree. -/
theorem C10_ext_leading_dot_witness :
    Op.emit (demoRecord demoRoot ".gitignore" [42, 10] "gitignore" "UTF-8")
        ∈ entryOps demoOS demoRoot (fileEntry (bytesOf ".gitignore")) ∧
      (demoRecord demoRoot ".gitignore" [42, 10] "gitignore" "UTF-8").Ext
        = bytesOf "gitignore" :=
  have h1 : Op.emit (demoRecord demoRoot ".gitignore" [42, 10] "gitignore" "UTF-8")
      ∈ entryOps demoOS demoRoot (fileEntry (bytesOf ".gitignore")) := List.Mem.head _
  ⟨h1, C10_ext_leading_dot demoOS _ (fileEntry (bytesOf ".gitignore")) _
    (bytesOf "gitignore") h1 (by decide) (by decide) (by decide)⟩

/-! ## float64 rounding -/

theorem roundHalfEven_ge_floor (y : ℚ) : ⌊y⌋ ≤ roundHalfEven y := by
  unfold roundHalfEven
  dsimp only
  split_ifs <;> omega

theorem roundHalfEven_le_floor_succ (y : ℚ) : roundHalfEven y ≤ ⌊y⌋ + 1 := by
  unfold roundHalfEven
  dsimp only
  split_ifs <;> omega

theorem roundHalfEven_intCast (k : ℤ) : roundHalfEven (k : ℚ) = k := by
  unfold roundHalfEven
  simp

theorem le_roundHalfEven {k : ℤ} {y : ℚ} (h : (k : ℚ) ≤ y) : k ≤ roundHalfEven y :=
  le_trans (Int.le_floor.2 h) (roundHalfEven_ge_floor y)

theorem roundHalfEven_le {k : ℤ} {y : ℚ} (h : y ≤ k) : roundHalfEven y ≤ k := by
  rcases eq_or_lt_of_le h with h | h
  · rw [h, roundHalfEven_intCast]
  · have h1 : ⌊y⌋ < k := Int.floor_lt.2 h
    have h2 := roundHalfEven_le_floor_succ y
    omega

/-- Rounding passes an odd integer `M` exactly from the midpoint `M + 1/2` on. -/
theorem lt_roundHalfEven_iff {M : ℤ} (hodd : M % 2 = 1) (y : ℚ) :
    M < roundHalfEven y ↔ (M : ℚ) + 1 / 2 ≤ y := by
  constructor
  · intro h
    by_contra hlt
    push_neg at hlt
    by_cases hy : y ≤ M
    · have := roundHalfEven_le hy
      omega
    · push_neg at hy
      have hfl : ⌊y⌋ = M := Int.floor_eq_iff.2 ⟨hy.le, by linarith⟩
      have hr : roundHalfEven y = M := by
        unfold roundHalfEven
        dsimp only
        rw [hfl, if_pos (by linarith)]
      omega
  · intro h
    by_cases hy : (M : ℚ) + 1 ≤ y
    · have := @le_roundHalfEven (M + 1) y (by push_cast; exact hy)
      omega
    · push_neg at hy
      have hfl : ⌊y⌋ = M := Int.floor_eq_iff.2 ⟨by linarith, hy⟩
      unfold roundHalfEven
      dsimp only
      rw [hfl]
      split_ifs with h1 h2 h3
      · linarith
      · omega
      · omega
      · omega

theorem log2_eq {x : ℚ} {e : ℤ} (hx : 0 < x) (h1 : (2 : ℚ) ^ e ≤ x) (h2 : x < (2 : ℚ) ^ (e + 1)) :
    Int.log 2 x = e := by
  have a1 : e ≤ Int.log 2 x := (Int.zpow_le_iff_le_log (by norm_num) hx).1 (by simpa using h1)
  have a2 : Int.log 2 x < e + 1 := (Int.lt_zpow_iff_log_lt (by norm_num) hx).1 (by simpa using h2)
  omega

theorem f64round_of_binade {x : ℚ} {e : ℤ} (hx : 0 < x) (he : -1022 ≤ e)
    (h1 : (2 : ℚ) ^ e ≤ x) (h2 : x < (2 : ℚ) ^ (e + 1)) :
    f64round x = (roundHalfEven (x * 2 ^ (52 - e)) : ℚ) / 2 ^ (52 - e) := by
  unfold f64round
  rw [if_neg (not_le.2 hx)]
  simp only [log2_eq hx h1 h2, max_eq_left he]

/-- Integers below `2^53` are converted to `float64` exactly. -/
theorem f64round_nat (n : ℕ) (h : n < 2 ^ 53) : f64round n = n := by
  rcases Nat.eq_zero_or_pos n with h0 | hpos
  · subst h0
    simp [f64round]
  · unfold f64round
    have hx : (0 : ℚ) < n := by exact_mod_cast hpos
    rw [if_neg (not_le.2 hx), Int.log_natCast]
    have hlog : Nat.log 2 n < 53 := Nat.log_lt_of_lt_pow (by omega) h
    have hmax : max ((Nat.log 2 n : ℕ) : ℤ) (-1022) = (Nat.log 2 n : ℤ) := max_eq_left (by omega)
    simp only [hmax]
    obtain ⟨k, hk⟩ : ∃ k : ℕ, (52 : ℤ) - (Nat.log 2 n : ℤ) = k := ⟨52 - Nat.log 2 n, by omega⟩
    rw [hk, zpow_natCast]
    have hcast : (n : ℚ) * 2 ^ k = ((n * 2 ^ k : ℤ) : ℚ) := by push_cast; rfl
    rw [hcast, roundHalfEven_intCast]
    push_cast
    field_simp

/-- Rounding does not pass a power of two from below. -/
theorem f64round_le_pow {x : ℚ} (k : ℤ) (hk : -1022 ≤ k) (hx : 0 < x) (hxk : x ≤ (2 : ℚ) ^ k) :
    f64round x ≤ (2 : ℚ) ^ k := by
  unfold f64round
  rw [if_neg (not_le.2 hx)]
  have hlog : Int.log 2 x ≤ k := by
    have hlt : x < (2 : ℚ) ^ (k + 1) :=
      lt_of_le_of_lt hxk (zpow_lt_zpow_right₀ (by norm_num) (by omega))
    have := (Int.lt_zpow_iff_log_lt (R := ℚ) (b := 2) (by norm_num) hx).1 (by simpa using hlt)
    omega
  have he : max (Int.log 2 x) (-1022) ≤ k := max_le hlog hk
  generalize max (Int.log 2 x) (-1022) = e at he
  dsimp only
  have hs : (0 : ℚ) < 2 ^ (52 - e) := zpow_pos (by norm_num) _
  rw [div_le_iff₀ hs]
  obtain ⟨j, hj⟩ : ∃ j : ℕ, k + (52 - e) = j := ⟨(k + (52 - e)).toNat, by omega⟩
  have hprod : (2 : ℚ) ^ k * 2 ^ (52 - e) = (((2 : ℤ) ^ j : ℤ) : ℚ) := by
    rw [← zpow_add₀ (by norm_num : (2 : ℚ) ≠ 0), hj, zpow_natCast]
    push_cast
    rfl
  rw [hprod]
  have hy : x * 2 ^ (52 - e) ≤ (((2 : ℤ) ^ j : ℤ) : ℚ) := by
    rw [← hprod]
    exact mul_le_mul_of_nonneg_right hxk hs.le
  exact_mod_cast roundHalfEven_le hy

/-- Rounding does not pass the power of two at the start of the binade from above. -/
theorem pow_log_le_f64round {x : ℚ} (hx : 0 < x) (hl : -1022 ≤ Int.log 2 x) :
    (2 : ℚ) ^ Int.log 2 x ≤ f64round x := by
  unfold f64round
  rw [if_neg (not_le.2 hx)]
  simp only [max_eq_left hl]
  have hs : (0 : ℚ) < 2 ^ (52 - Int.log 2 x) := zpow_pos (by norm_num) _
  rw [le_div_iff₀ hs]
  have hprod : (2 : ℚ) ^ Int.log 2 x * 2 ^ (52 - Int.log 2 x) = (((2 : ℤ) ^ 52 : ℤ) : ℚ) := by
    rw [← zpow_add₀ (by norm_num : (2 : ℚ) ≠ 0)]
    have : Int.log 2 x + (52 - Int.log 2 x) = ((52 : ℕ) : ℤ) := by omega
    rw [this, zpow_natCast]
    push_cast
    rfl
  rw [hprod]
  have hself : (2 : ℚ) ^ Int.log 2 x ≤ x := by
    simpa using Int.zpow_log_le_self (R := ℚ) (b := 2) (by norm_num) hx
  have hy : (((2 : ℤ) ^ 52 : ℤ) : ℚ) ≤ x * 2 ^ (52 - Int.log 2 x) := by
    rw [← hprod]
    exact mul_le_mul_of_nonneg_right hself hs.le
  exact_mod_cast le_roundHalfEven hy

theorem f64const03_eq : f64const03 = 5404319552844595 / 2 ^ 54 := by
  unfold f64const03
  rw [f64round_of_binade (e := -2) (by norm_num) (by norm_num) (by norm_num) (by norm_num)]
  have hfl : ⌊(3 / 10 : ℚ) * 2 ^ ((52 : ℤ) - -2)⌋ = 5404319552844595 := by
    rw [Int.floor_eq_iff]
    constructor <;> norm_num
  have hr : roundHalfEven ((3 / 10 : ℚ) * 2 ^ ((52 : ℤ) - -2)) = 5404319552844595 := by
    unfold roundHalfEven
    dsimp only
    rw [hfl, if_pos (by norm_num)]
  rw [hr]
  norm_num

/-- A rounded positive value exceeds the constant `0.3` exactly when the exact value
reaches the midpoint between that constant and the next `float64`. -/
theorem f64const03_lt_f64round_iff {x : ℚ} (hx : 0 < x) :
    f64const03 < f64round x ↔ (10808639105689191 : ℚ) / 2 ^ 55 ≤ x := by
  rw [f64const03_eq]
  by_cases hlo : x < 1 / 4
  · have h1 : f64round x ≤ (2 : ℚ) ^ (-2 : ℤ) :=
      f64round_le_pow (-2) (by norm_num) hx (by norm_num; linarith)
    have h2 : (2 : ℚ) ^ (-2 : ℤ) = 1 / 4 := by norm_num
    rw [h2] at h1
    constructor
    · intro h
      exfalso
      have : (5404319552844595 : ℚ) / 2 ^ 54 < 1 / 4 := lt_of_lt_of_le h h1
      norm_num at this
    · intro h
      exfalso
      have : (10808639105689191 : ℚ) / 2 ^ 55 < 1 / 4 := lt_of_le_of_lt h hlo
      norm_num at this
  · push_neg at hlo
    by_cases hhi : x < 1 / 2
    · rw [f64round_of_binade (e := -2) hx (by norm_num) (by norm_num; linarith)
        (by norm_num; linarith)]
      have hs : ((52 : ℤ) - -2) = ((54 : ℕ) : ℤ) := by norm_num
      rw [hs, zpow_natCast]
      rw [div_lt_div_iff_of_pos_right (by norm_num)]
      have hM : ((5404319552844595 : ℤ) : ℚ) = 5404319552844595 := by norm_num
      rw [← hM, Int.cast_lt, lt_roundHalfEven_iff (by norm_num)]
      constructor
      · intro h
        rw [div_le_iff₀ (by norm_num)]
        push_cast at h
        linarith
      · intro h
        rw [div_le_iff₀ (by norm_num)] at h
        push_cast
        linarith
    · push_neg at hhi
      have hl : (-1 : ℤ) ≤ Int.log 2 x :=
        (Int.zpow_le_iff_le_log (R := ℚ) (b := 2) (by norm_num) hx).1 (by norm_num; linarith)
      have h1 := pow_log_le_f64round hx (by omega)
      have h2 : (2 : ℚ) ^ (-1 : ℤ) ≤ 2 ^ Int.log 2 x := zpow_le_zpow_right₀ (by norm_num) hl
      have h3 : (2 : ℚ) ^ (-1 : ℤ) = 1 / 2 := by norm_num
      rw [h3] at h2
      constructor
      · intro _
        have : (10808639105689191 : ℚ) / 2 ^ 55 ≤ 1 / 2 := by norm_num
        linarith
      · intro _
        have : (5404319552844595 : ℚ) / 2 ^ 54 < 1 / 2 := by norm_num
        linarith

/-- The comparison of line 57 on exactly converted operands. -/
theorem f64_ratio_gt_iff (c n : ℕ) (hn : 0 < n) (hc : c ≤ n) (hlen : n < 2 ^ 52) :
    f64div (f64ofInt c) (f64ofInt n) > f64const03 ↔ 3 * n < 10 * c := by
  unfold f64div f64ofInt
  rw [f64round_nat c (by omega), f64round_nat n (by omega)]
  have hnq : (0 : ℚ) < n := by exact_mod_cast hn
  rcases Nat.eq_zero_or_pos c with h0 | hpos
  · subst h0
    have h03 : (0 : ℚ) < f64const03 := by rw [f64const03_eq]; norm_num
    simp only [Nat.cast_zero, zero_div, gt_iff_lt]
    have hz : f64round 0 = 0 := by simp [f64round]
    rw [hz]
    constructor
    · intro h; linarith
    · intro h; omega
  · have hcq : (0 : ℚ) < c := by exact_mod_cast hpos
    rw [gt_iff_lt, f64const03_lt_f64round_iff (div_pos hcq hnq), le_div_iff₀ hnq,
      div_mul_eq_mul_div, div_le_iff₀ (by norm_num)]
    have hcast : (10808639105689191 : ℚ) * n ≤ c * 2 ^ 55 ↔
        10808639105689191 * n ≤ c * 2 ^ 55 := by
      constructor
      · intro h; exact_mod_cast h
      · intro h; exact_mod_cast h
    rw [hcast]
    constructor
    · intro h; omega
    · intro h; omega

/-! ### Claim C2 -/

theorem nonPrintableByte_eq_spec (b : Nat) : nonPrintableByte b = specNonPrintable b := by
  unfold nonPrintableByte specNonPrintable
  rw [Bool.eq_iff_iff]
  simp only [Bool.and_eq_true, Bool.or_eq_true, decide_eq_true_eq, bne_iff_ne, ne_eq]
  omega

theorem any_zero_iff (data : List Nat) : data.any (fun b => b == 0) = true ↔ 0 ∈ data := by
  simp [List.any_eq_true]

/-- Claim C2: for a byte sequence shorter than `2^52` (any slice a Go program can
hold), `isBinaryFromData` is true exactly when the data has a zero byte or strictly
more than 30% of its bytes are outside `[32,126]` and not 9, 10 or 13
(`10 * count > 3 * len`), where the source compares the rounded `float64` quotient
with the `float64` constant `0.3`; a zero byte gives true whatever the rest, and the
empty sequence gives false. -/
theorem C2_isBinaryFromData_iff (data : List Nat) (hlen : data.length < 2 ^ 52) :
    (isBinaryFromData data = true ↔ specIsBinary data) ∧
    (0 ∈ data → isBinaryFromData data = true) ∧
    isBinaryFromData [] = false := by
  have hzero : 0 ∈ data → isBinaryFromData data = true := by
    intro h0
    unfold isBinaryFromData
    rw [if_pos ((any_zero_iff data).2 h0)]
  refine ⟨?_, hzero, by simp [isBinaryFromData]⟩
  by_cases h0 : 0 ∈ data
  · exact ⟨fun _ => Or.inl h0, fun _ => hzero h0⟩
  · have hany : ¬ (data.any (fun b => b == 0) = true) := fun h => h0 ((any_zero_iff data).1 h)
    have hfun : nonPrintableByte = specNonPrintable := funext nonPrintableByte_eq_spec
    unfold isBinaryFromData specIsBinary
    rw [if_neg hany]
    dsimp only
    rw [hfun]
    rcases Nat.eq_zero_or_pos data.length with hl | hl
    · have hnil : data = [] := List.length_eq_zero.1 hl
      subst hnil
      simp
    · have hc : data.countP specNonPrintable ≤ data.length := List.countP_le_length _
      have hiff := f64_ratio_gt_iff (data.countP specNonPrintable) data.length hl hc hlen
      constructor
      · intro h
        right
        split_ifs at h with hcond
        · simp only [Bool.and_eq_true, decide_eq_true_eq] at hcond
          have := hiff.1 hcond.2
          omega
      · rintro (h | h)
        · exact absurd h h0
        · have hgt := hiff.2 (by omega)
          rw [if_pos]
          simp only [Bool.and_eq_true, decide_eq_true_eq]
          exact ⟨hl, hgt⟩

/-- Claim C2 at the three bytes 255, 65, 66. -/
theorem C2_isBinaryFromData_iff_witness :
    [255, 65, 66].length < 2 ^ 52 ∧
      ((isBinaryFromData [255, 65, 66] = true ↔ specIsBinary [255, 65, 66]) ∧
        (0 ∈ [255, 65, 66] → isBinaryFromData [255, 65, 66] = true) ∧
        isBinaryFromData [] = false) :=
  ⟨by norm_num, C2_isBinaryFromData_iff [255, 65, 66] (by norm_num)⟩

/-! ## The worker on one entry -/

theorem emitRecord_eq (os : OS) (name : GoString) (p : Path) (size : ℚ) :
    emitted (emitRecord os name p size) =
      [{ Name := name
         Path := p
         Size := size
         Ext := workerExt name
         Encoding := if (detectEncodingAndBinary os p).err then bytesOf "unknown"
           else (detectEncodingAndBinary os p).encoding
         IsBinary := if (detectEncodingAndBinary os p).err then false
           else (detectEncodingAndBinary os p).binary }] := by
  unfold emitRecord emitted ToSlash
  by_cases h : (detectEncodingAndBinary os p).err = true
  · simp [h]
  · simp [h]

theorem mem_emitted {ops : List Op} {fi : FileInfo} : fi ∈ emitted ops ↔ Op.emit fi ∈ ops := by
  unfold emitted
  rw [List.mem_filterMap]
  constructor
  · rintro ⟨op, hop, h⟩
    cases op <;> simp at h
    subst h
    exact hop
  · intro h
    exact ⟨Op.emit fi, h, rfl⟩

theorem entryOps_of_resolves {os : OS} {dir : Path} {entry : DirEntry} {p : Path} {size : ℚ}
    (hdir : entry.IsDir = false) (hres : Resolves os dir entry p)
    (hsize : getFileSize os p = some size) :
    entryOps os dir entry = emitRecord os entry.Name p size := by
  obtain ⟨info, hinfo, h | h⟩ := hres
  · obtain ⟨hs, hp⟩ := h
    subst hp
    unfold entryOps
    simp [hdir, hinfo, hs, hsize]
  · obtain ⟨hs, hp⟩ := h
    unfold entryOps
    simp [hdir, hinfo, hs, hsize, hp]

theorem entryOps_emit_inv {os : OS} {dir : Path} {entry : DirEntry} {fi : FileInfo}
    (h : Op.emit fi ∈ entryOps os dir entry) :
    entry.IsDir = false ∧ ∃ p size, Resolves os dir entry p ∧ getFileSize os p = some size ∧
      entryOps os dir entry = emitRecord os entry.Name p size := by
  have hdir : entry.IsDir = false := by
    by_contra hd
    have hd' : entry.IsDir = true := by simpa using hd
    unfold entryOps at h
    simp [hd'] at h
  refine ⟨hdir, ?_⟩
  cases hinfo : entry.Info with
  | none =>
    unfold entryOps at h
    simp [hdir, hinfo] at h
  | some info =>
    cases hs : info.symlink with
    | false =>
      cases hsz : getFileSize os (Join dir entry.Name) with
      | none =>
        unfold entryOps at h
        simp [hdir, hinfo, hs, hsz] at h
      | some size =>
        have hres : Resolves os dir entry (Join dir entry.Name) :=
          ⟨info, hinfo, Or.inl ⟨hs, rfl⟩⟩
        exact ⟨_, size, hres, hsz, entryOps_of_resolves hdir hres hsz⟩
    | true =>
      cases hev : os.EvalSymlinks (Join dir entry.Name) with
      | none =>
        unfold entryOps at h
        simp [hdir, hinfo, hs, hev] at h
      | some p =>
        cases hsz : getFileSize os p with
        | none =>
          unfold entryOps at h
          simp [hdir, hinfo, hs, hev, hsz] at h
        | some size =>
          have hres : Resolves os dir entry p := ⟨info, hinfo, Or.inr ⟨hs, hev⟩⟩
          exact ⟨p, size, hres, hsz, entryOps_of_resolves hdir hres hsz⟩

theorem detect_err_iff (os : OS) (p : Path) :
    (detectEncodingAndBinary os p).err = true ↔
      (os.Open p = false ∨ (os.Read p).2 = ReadErr.fail ∨
        os.DetectBest ((os.Read p).1.take 1024) = none) := by
  unfold detectEncodingAndBinary
  cases ho : os.Open p
  · simp
  · by_cases hr : (os.Read p).2 = ReadErr.fail
    · simp [hr]
    · cases hd : os.DetectBest ((os.Read p).1.take 1024) <;> simp [hr, hd]

theorem detect_binary_of_ok {os : OS} {p : Path} (h : (detectEncodingAndBinary os p).err = false) :
    (detectEncodingAndBinary os p).binary = isBinaryFromData ((os.Read p).1.take 1024) := by
  have hne : ¬ (detectEncodingAndBinary os p).err = true := by simp [h]
  rw [detect_err_iff] at hne
  push_neg at hne
  obtain ⟨ho, hr, hd⟩ := hne
  unfold detectEncodingAndBinary
  have ho' : os.Open p = true := by simpa using ho
  obtain ⟨c, hc⟩ := Option.ne_none_iff_exists'.1 hd
  simp [ho', hr, hc]

/-! ### Claims C5 and C6 -/

/-- Claim C5 fails as stated: `raw.bin` can be opened and read, its prefix `0, 255`
contains a zero byte, the guesser fails on it, and the record the worker sends has
`IsBinary = false`. -/
theorem C5_counterexample :
    demoOS.Open (demoRoot ++ [bytesOf "raw.bin"]) = true ∧
    (demoOS.Read (demoRoot ++ [bytesOf "raw.bin"])).2 ≠ ReadErr.fail ∧
    0 ∈ (demoOS.Read (demoRoot ++ [bytesOf "raw.bin"])).1.take 1024 ∧
    demoOS.DetectBest ((demoOS.Read (demoRoot ++ [bytesOf "raw.bin"])).1.take 1024) = none ∧
    emittedBinary (entryOps demoOS demoRoot (fileEntry (bytesOf "raw.bin"))) = [false] := by
  decide

/-- Claim C5 (amended): for every file that can be opened and read and whose prefix
(at most 1024 bytes) contains a zero byte, the record the worker sends has
`IsBinary = true` exactly when the charset guesser returns a label on that prefix,
whatever the label; when the guesser fails the record carries the fallback
`IsBinary = false`. -/
theorem C5_null_byte_binary (os : OS) (dir : Path) (entry : DirEntry) (fi : FileInfo)
    (h : Op.emit fi ∈ entryOps os dir entry)
    (hopen : os.Open fi.Path = true) (hread : (os.Read fi.Path).2 ≠ ReadErr.fail)
    (hzero : 0 ∈ (os.Read fi.Path).1.take 1024) :
    (fi.IsBinary = true ↔ ∃ label, os.DetectBest ((os.Read fi.Path).1.take 1024) = some label) := by
  obtain ⟨_, p, size, _, _, heq⟩ := entryOps_emit_inv h
  have hmem : fi ∈ emitted (emitRecord os entry.Name p size) := by
    rw [← heq]; exact mem_emitted.2 h
  rw [emitRecord_eq, List.mem_singleton] at hmem
  have hp : fi.Path = p := by rw [hmem]
  rw [hp] at hopen hread hzero ⊢
  have hbin : fi.IsBinary = if (detectEncodingAndBinary os p).err then false
      else (detectEncodingAndBinary os p).binary := by rw [hmem]
  rw [hbin]
  cases hd : os.DetectBest ((os.Read p).1.take 1024) with
  | none =>
    have herr : (detectEncodingAndBinary os p).err = true :=
      (detect_err_iff os p).2 (Or.inr (Or.inr hd))
    simp [herr]
  | some label =>
    have herr : (detectEncodingAndBinary os p).err = false := by
      cases he : (detectEncodingAndBinary os p).err with
      | false => rfl
      | true =>
        rcases (detect_err_iff os p).1 he with h1 | h1 | h1
        · rw [hopen] at h1; cases h1
        · exact absurd h1 hread
        · rw [hd] at h1; cases h1
    have hb := detect_binary_of_ok herr
    have htrue : isBinaryFromData ((os.Read p).1.take 1024) = true := by
      unfold isBinaryFromData
      rw [if_pos ((any_zero_iff _).2 hzero)]
    simp [herr, hb, htrue]

/-- The amended claim C5 at `zero.dat` (bytes 0, 65), on which the guesser succeeds. -/
theorem C5_null_byte_binary_witness :
    Op.emit (demoRecord demoRoot "zero.dat" [0, 65] "dat" "UTF-8")
        ∈ entryOps demoOS demoRoot (fileEntry (bytesOf "zero.dat")) ∧
      0 ∈ (demoOS.Read (demoRecord demoRoot "zero.dat" [0, 65] "dat" "UTF-8").Path).1.take 1024 ∧
      ((demoRecord demoRoot "zero.dat" [0, 65] "dat" "UTF-8").IsBinary = true ↔
        ∃ label, demoOS.DetectBest
          ((demoOS.Read (demoRecord demoRoot "zero.dat" [0, 65] "dat" "UTF-8").Path).1.take 1024)
            = some label) :=
  have h1 : Op.emit (demoRecord demoRoot "zero.dat" [0, 65] "dat" "UTF-8")
      ∈ entryOps demoOS demoRoot (fileEntry (bytesOf "zero.dat")) := List.Mem.head _
  have h2 : 0 ∈ (demoOS.Read (demoRecord demoRoot "zero.dat" [0, 65] "dat" "UTF-8").Path).1.take
      1024 := by decide
  ⟨h1, h2, C5_null_byte_binary demoOS _ _ _ h1 (by decide) (by decide) h2⟩

/-- Claim C6: for a non-directory entry whose `Info`, symlink resolution and `Stat`
succeed but whose classification fails (open fails, the read fails with an error
other than EOF, or the guesser fails), the worker sends exactly one record, with
`Encoding = "unknown"` and `IsBinary = false`; its `Name`, `Path`, `Size` and `Ext`
are those of the record sent under any system `os2` that answers `EvalSymlinks` and
`Stat` alike and on which classification succeeds. -/
theorem C6_degraded_record (os os2 : OS) (dir : Path) (entry : DirEntry) (p : Path) (size : ℚ)
    (hdir : entry.IsDir = false) (hres : Resolves os dir entry p)
    (hsize : getFileSize os p = some size)
    (herr : os.Open p = false ∨ (os.Read p).2 = ReadErr.fail ∨
      os.DetectBest ((os.Read p).1.take 1024) = none)
    (hsym : os2.EvalSymlinks = os.EvalSymlinks) (hstat : os2.Stat = os.Stat)
    (hok : (detectEncodingAndBinary os2 p).err = false) :
    emitted (entryOps os dir entry) =
      [{ Name := entry.Name
         Path := p
         Size := size
         Ext := workerExt entry.Name
         Encoding := bytesOf "unknown"
         IsBinary := false }] ∧
    ∃ fi2, emitted (entryOps os2 dir entry) = [fi2] ∧ fi2.Name = entry.Name ∧ fi2.Path = p ∧
      fi2.Size = size ∧ fi2.Ext = workerExt entry.Name ∧
      fi2.Encoding = (detectEncodingAndBinary os2 p).encoding ∧
      fi2.IsBinary = isBinaryFromData ((os2.Read p).1.take 1024) := by
  have he : (detectEncodingAndBinary os p).err = true := (detect_err_iff os p).2 herr
  constructor
  · rw [entryOps_of_resolves hdir hres hsize, emitRecord_eq]
    simp [he]
  · have hres2 : Resolves os2 dir entry p := by
      obtain ⟨info, hinfo, h⟩ := hres
      exact ⟨info, hinfo, by rw [hsym]; exact h⟩
    have hsize2 : getFileSize os2 p = some size := by
      unfold getFileSize at hsize ⊢
      rw [hstat]; exact hsize
    rw [entryOps_of_resolves hdir hres2 hsize2, emitRecord_eq]
    refine ⟨_, rfl, rfl, rfl, rfl, rfl, ?_, ?_⟩
    · simp [hok]
    · simp [hok, detect_binary_of_ok hok]

/-- Claim C6 at `raw.bin`, on which the guesser of the concrete tree fails, against
the same tree with a guesser that always answers. -/
theorem C6_degraded_record_witness :
    emitted (entryOps demoOS demoRoot (fileEntry (bytesOf "raw.bin"))) =
      [{ Name := bytesOf "raw.bin"
         Path := demoRoot ++ [bytesOf "raw.bin"]
         Size := f64div (f64ofInt 2) f64const1024
         Ext := workerExt (bytesOf "raw.bin")
         Encoding := bytesOf "unknown"
         IsBinary := false }] ∧
    ∃ fi2, emitted (entryOps (treeOS demoRoot demoTree (fun _ => some (bytesOf "UTF-8")))
        demoRoot (fileEntry (bytesOf "raw.bin"))) = [fi2] ∧
      fi2.Name = bytesOf "raw.bin" ∧ fi2.Path = demoRoot ++ [bytesOf "raw.bin"] ∧
      fi2.Size = f64div (f64ofInt 2) f64const1024 ∧ fi2.Ext = workerExt (bytesOf "raw.bin") ∧
      fi2.Encoding = (detectEncodingAndBinary
        (treeOS demoRoot demoTree (fun _ => some (bytesOf "UTF-8")))
        (demoRoot ++ [bytesOf "raw.bin"])).encoding ∧
      fi2.IsBinary = isBinaryFromData
        (((treeOS demoRoot demoTree (fun _ => some (bytesOf "UTF-8"))).Read
          (demoRoot ++ [bytesOf "raw.bin"])).1.take 1024) :=
  C6_degraded_record demoOS (treeOS demoRoot demoTree (fun _ => some (bytesOf "UTF-8")))
    demoRoot (fileEntry (bytesOf "raw.bin")) (demoRoot ++ [bytesOf "raw.bin"])
    (f64div (f64ofInt 2) f64const1024) rfl
    ⟨⟨false⟩, rfl, Or.inl ⟨rfl, rfl⟩⟩ rfl (Or.inr (Or.inr (by decide))) rfl rfl (by decide)

/-! ## The body of the worker loop -/

theorem entryOps_shape (os : OS) (dir : Path) (entry : DirEntry) :
    (entry.IsDir = true ∧ entryOps os dir entry = [Op.wgAdd, Op.go (Join dir entry.Name)]) ∨
    (entry.IsDir = false ∧
      ∀ op ∈ entryOps os dir entry, op = Op.log ∨ ∃ fi, op = Op.emit fi) := by
  cases hdir : entry.IsDir with
  | true =>
    left
    exact ⟨rfl, by unfold entryOps; simp [hdir]⟩
  | false =>
    right
    refine ⟨rfl, ?_⟩
    have hrec : ∀ (p : Path) (size : ℚ), ∀ op ∈ emitRecord os entry.Name p size,
        op = Op.log ∨ ∃ fi, op = Op.emit fi := by
      intro p size op hop
      unfold emitRecord at hop
      simp only [List.mem_append, List.mem_singleton] at hop
      rcases hop with h | h
      · split at h
        · left; simpa using h
        · simp at h
      · right; exact ⟨_, h⟩
    intro op hop
    unfold entryOps at hop
    simp only [hdir] at hop
    repeat' split at hop
    all_goals first
      | contradiction
      | exact hrec _ _ op hop
      | (left; simpa using hop)

/-- Facts about a list of operations without `wgAdd`, `go` and `wgDone`. -/
theorem plain_facts (ops : List Op) (h : ∀ op ∈ ops, op = Op.log ∨ ∃ fi, op = Op.emit fi) :
    ops.count Op.wgDone = 0 ∧ ops.count Op.wgAdd = 0 ∧ spawned ops = [] ∧
      (ops.map wgDelta).sum = 0 := by
  induction ops with
  | nil => simp [spawned]
  | cons op rest ih =>
    obtain ⟨h1, h2, h3, h4⟩ := ih (fun o ho => h o (List.mem_cons_of_mem _ ho))
    unfold spawned at h3 ⊢
    rcases h op (List.mem_cons_self _ _) with hop | ⟨fi, hop⟩
    · subst hop
      simp [h1, h2, h3, h4, wgDelta]
    · subst hop
      simp [h1, h2, h3, h4, wgDelta]

theorem spawned_append (a b : List Op) : spawned (a ++ b) = spawned a ++ spawned b := by
  unfold spawned
  rw [List.filterMap_append]

/-- Counting facts for the operations of a listing. -/
theorem flatMap_entryOps_facts (os : OS) (dir : Path) (es : List DirEntry) :
    (es.flatMap (entryOps os dir)).count Op.wgDone = 0 ∧
    (es.flatMap (entryOps os dir)).count Op.wgAdd = (es.filter (fun e => e.IsDir)).length ∧
    spawned (es.flatMap (entryOps os dir))
      = (es.filter (fun e => e.IsDir)).map (fun e => Join dir e.Name) ∧
    ((es.flatMap (entryOps os dir)).map wgDelta).sum
      = ((es.filter (fun e => e.IsDir)).length : Int) := by
  induction es with
  | nil => simp [spawned]
  | cons e rest ih =>
    obtain ⟨h1, h2, h3, h4⟩ := ih
    rw [List.flatMap_cons]
    rcases entryOps_shape os dir e with ⟨hd, heq⟩ | ⟨hd, hplain⟩
    · rw [heq]
      refine ⟨?_, ?_, ?_, ?_⟩
      · simp [List.count_cons, h1]
      · simp [List.count_cons, h2, hd]
      · rw [spawned_append, h3]
        simp [spawned, hd]
      · simp [h4, hd, wgDelta]
        ring
    · obtain ⟨p1, p2, p3, p4⟩ := plain_facts _ hplain
      refine ⟨?_, ?_, ?_, ?_⟩
      · rw [List.count_append, p1, h1]
      · rw [List.count_append, p2, h2]
        simp [hd]
      · rw [spawned_append, p3, h3]
        simp [hd]
      · rw [List.map_append, List.sum_append, p4, h4]
        simp [hd]

theorem split_before (x : Op) (A B pre post : List Op) (hA : ∀ op ∈ A, op ≠ x)
    (h : A ++ B = pre ++ x :: post) : ∃ pre2, pre = A ++ pre2 ∧ B = pre2 ++ x :: post := by
  induction A generalizing pre with
  | nil => exact ⟨pre, rfl, h⟩
  | cons a A ih =>
    cases pre with
    | nil =>
      simp only [List.cons_append, List.nil_append, List.cons.injEq] at h
      exact absurd h.1 (hA a (List.mem_cons_self _ _))
    | cons b pre1 =>
      simp only [List.cons_append, List.cons.injEq] at h
      obtain ⟨pre2, hp, hB⟩ := ih pre1 (fun o ho => hA o (List.mem_cons_of_mem _ ho)) h.2
      exact ⟨pre2, by rw [h.1, hp]; rfl, hB⟩

/-- In the body of a listing every `go` comes right after a `wgAdd` and before the
final `wgDone`. -/
theorem go_after_add (os : OS) (dir : Path) (es : List DirEntry) :
    ∀ pre p post, es.flatMap (entryOps os dir) ++ [Op.wgDone] = pre ++ Op.go p :: post →
      (∃ pre1, pre = pre1 ++ [Op.wgAdd]) ∧ Op.wgDone ∈ post := by
  induction es with
  | nil =>
    intro pre p post h
    cases pre with
    | nil => simp at h
    | cons a pre1 =>
      cases pre1 <;> simp at h
  | cons e rest ih =>
    intro pre p post h
    rw [List.flatMap_cons, List.append_assoc] at h
    rcases entryOps_shape os dir e with ⟨_, heq⟩ | ⟨_, hplain⟩
    · rw [heq] at h
      cases pre with
      | nil => simp at h
      | cons a pre1 =>
        cases pre1 with
        | nil =>
          simp only [List.cons_append, List.nil_append, List.cons.injEq] at h
          obtain ⟨ha, _, hpost⟩ := h
          refine ⟨⟨[], by simp [ha]⟩, ?_⟩
          rw [← hpost]
          simp
        | cons b pre2 =>
          simp only [List.cons_append, List.nil_append, List.cons.injEq] at h
          obtain ⟨ha, hb, hrest⟩ := h
          obtain ⟨⟨pre3, hp3⟩, hdone⟩ := ih pre2 p post hrest
          exact ⟨⟨a :: b :: pre3, by rw [hp3]; rfl⟩, hdone⟩
    · have hA : ∀ op ∈ entryOps os dir e, op ≠ Op.go p := by
        intro op hop
        rcases hplain op hop with h1 | ⟨fi, h1⟩ <;> simp [h1]
      obtain ⟨pre2, hp, hB⟩ := split_before (Op.go p) _ _ pre post hA h
      obtain ⟨⟨pre3, hp3⟩, hdone⟩ := ih pre2 p post hB
      exact ⟨⟨entryOps os dir e ++ pre3, by rw [hp, hp3, List.append_assoc]⟩, hdone⟩

theorem applyOp_counter {s s1 : State} {op : Op} (h : applyOp s op = some s1)
    (hp : s1.panicked = false) : s1.counter = s.counter + wgDelta op := by
  cases op with
  | log => simp only [applyOp] at h; cases h; simp [wgDelta]
  | wgAdd => simp only [applyOp] at h; cases h; simp [wgDelta]
  | go p => simp only [applyOp] at h; cases h; simp [wgDelta]
  | emit fi =>
    simp only [applyOp] at h
    split_ifs at h
    · cases h; simp at hp
    · cases h; simp [wgDelta]
  | wgDone =>
    simp only [applyOp] at h
    split_ifs at h
    · cases h; simp at hp
    · cases h; simp [wgDelta]; ring

theorem applyOp_panicked {s s1 : State} {op : Op} (h : applyOp s op = some s1)
    (hp : s.panicked = true) : s1.panicked = true := by
  cases op with
  | log => simp only [applyOp] at h; cases h; exact hp
  | wgAdd => simp only [applyOp] at h; cases h; exact hp
  | go p => simp only [applyOp] at h; cases h; exact hp
  | emit fi =>
    simp only [applyOp] at h
    split_ifs at h
    · cases h; rfl
    · cases h; exact hp
  | wgDone =>
    simp only [applyOp] at h
    split_ifs at h
    · cases h; rfl
    · cases h; exact hp

theorem runOps_panicked {ops : List Op} {s s1 : State} (h : runOps s ops = some s1)
    (hp : s.panicked = true) : s1.panicked = true := by
  induction ops generalizing s with
  | nil => simp [runOps] at h; subst h; exact hp
  | cons op rest ih =>
    unfold runOps at h
    cases ha : applyOp s op with
    | none => simp [ha] at h
    | some s2 =>
      simp only [ha] at h
      exact ih h (applyOp_panicked ha hp)

theorem runOps_counter {ops : List Op} {s s1 : State} (h : runOps s ops = some s1)
    (hp : s1.panicked = false) : s1.counter = s.counter + (ops.map wgDelta).sum := by
  induction ops generalizing s with
  | nil => simp [runOps] at h; subst h; simp
  | cons op rest ih =>
    unfold runOps at h
    cases ha : applyOp s op with
    | none => simp [ha] at h
    | some s2 =>
      simp only [ha] at h
      have hp2 : s2.panicked = false := by
        cases hq : s2.panicked with
        | false => rfl
        | true => rw [runOps_panicked h hq] at hp; cases hp
      rw [ih h, applyOp_counter ha hp2, List.map_cons, List.sum_cons]
      ring

/-! ### Claim C3 -/

/-- Claim C3: on every path through the body of the worker loop for a dequeued
directory (the listing fails, or succeeds with any mix of subdirectories, files and
skipped entries) there is exactly one `wg.Done()`, it is the last operation, there is
exactly one `wg.Add(1)` per subdirectory entry, each `go func(subDir)` (whose
goroutine performs the send to `dirsChan`) for the subdirectories in listing order
comes right after its `wg.Add(1)` and before the `wg.Done()`; the counter changes by
`k - 1` for a listing with `k` subdirectories and by `-1` when the listing fails. -/
theorem C3_loop_body_waitgroup (os : OS) (dir : Path) :
    (loopBody os dir).count Op.wgDone = 1 ∧
    (loopBody os dir).getLast? = some Op.wgDone ∧
    (loopBody os dir).count Op.wgAdd = (subdirsOf os dir).length ∧
    spawned (loopBody os dir) = (subdirsOf os dir).map (fun e => Join dir e.Name) ∧
    (∀ pre p post, loopBody os dir = pre ++ Op.go p :: post →
      (∃ pre1, pre = pre1 ++ [Op.wgAdd]) ∧ Op.wgDone ∈ post) ∧
    ((loopBody os dir).map wgDelta).sum = ((subdirsOf os dir).length : Int) - 1 ∧
    (os.ReadDir dir = none → ((loopBody os dir).map wgDelta).sum = -1) ∧
    (∀ s s1, runOps s (loopBody os dir) = some s1 → s1.panicked = false →
      s1.counter = s.counter + ((subdirsOf os dir).length : Int) - 1) := by
  have hsum : ((loopBody os dir).map wgDelta).sum = ((subdirsOf os dir).length : Int) - 1 := by
    unfold loopBody subdirsOf
    cases hr : os.ReadDir dir with
    | none => simp [wgDelta]
    | some es =>
      obtain ⟨_, _, _, h4⟩ := flatMap_entryOps_facts os dir es
      simp only [List.map_append, List.sum_append, h4]
      simp [wgDelta]
      ring
  refine ⟨?_, ?_, ?_, ?_, ?_, hsum, ?_, ?_⟩
  · unfold loopBody
    cases hr : os.ReadDir dir with
    | none => simp
    | some es =>
      obtain ⟨h1, _, _, _⟩ := flatMap_entryOps_facts os dir es
      simp only [List.count_append, h1]
      simp
  · unfold loopBody
    cases hr : os.ReadDir dir with
    | none => simp
    | some es => simp
  · unfold loopBody subdirsOf
    cases hr : os.ReadDir dir with
    | none => simp
    | some es =>
      obtain ⟨_, h2, _, _⟩ := flatMap_entryOps_facts os dir es
      simp only [List.count_append, h2]
      simp
  · unfold loopBody subdirsOf
    cases hr : os.ReadDir dir with
    | none => simp [spawned]
    | some es =>
      obtain ⟨_, _, h3, _⟩ := flatMap_entryOps_facts os dir es
      simp only [spawned_append, h3]
      simp [spawned]
  · intro pre p post h
    unfold loopBody at h
    cases hr : os.ReadDir dir with
    | none =>
      rw [hr] at h
      cases pre with
      | nil => simp at h
      | cons a pre1 =>
        cases pre1 with
        | nil => simp at h
        | cons b pre2 => cases pre2 <;> simp at h
    | some es =>
      rw [hr] at h
      exact go_after_add os dir es pre p post h
  · intro hr
    rw [hsum]
    unfold subdirsOf
    simp [hr]
  · intro s s1 hrun hp
    rw [runOps_counter hrun hp, hsum]
    ring

/-! ## The counter invariant -/

theorem split_at_index {α : Type} {l : List α} {i : Nat} {x : α} (h : l[i]? = some x) :
    ∃ l1 l2, l = l1 ++ x :: l2 ∧ l1.length = i ∧
      (∀ y, l.set i y = l1 ++ y :: l2) ∧ l.eraseIdx i = l1 ++ l2 := by
  induction l generalizing i with
  | nil => simp at h
  | cons a l ih =>
    cases i with
    | zero =>
      simp at h
      subst h
      exact ⟨[], l, rfl, rfl, fun _ => rfl, rfl⟩
    | succ i =>
      simp at h
      obtain ⟨l1, l2, h1, h2, h3, h4⟩ := ih h
      refine ⟨a :: l1, l2, by rw [h1]; rfl, by simp [h2], fun y => ?_, ?_⟩
      · simp [List.set, h3 y]
      · simp [List.eraseIdx, h4]

theorem run_invariant (os : OS) (P : State → Prop)
    (hstep : ∀ s a s1, P s → step os s a = some s1 → P s1) :
    ∀ acts s s1, P s → run os s acts = some s1 → P s1 := by
  intro acts
  induction acts with
  | nil =>
    intro s s1 hP h
    simp [run] at h
    subst h
    exact hP
  | cons a rest ih =>
    intro s s1 hP h
    unfold run at h
    cases hs : step os s a with
    | none => simp [hs] at h
    | some s2 =>
      simp only [hs] at h
      exact ih s2 s1 (hstep s a s2 hP hs) h

theorem weight_nil : weight [] = 0 := rfl

theorem weight_cons (op : Op) (r : List Op) : weight (op :: r) = opWeight op + weight r := by
  simp [weight]

theorem weight_append (a b : List Op) : weight (a ++ b) = weight a + weight b := by
  simp [weight]

theorem BodyTail.weight_pos {ops : List Op} (h : BodyTail ops) : 1 ≤ weight ops := by
  induction h with
  | done => simp [weight, opWeight]
  | log _ ih => rw [weight_cons]; simp [opWeight]; exact ih
  | emit fi _ ih => rw [weight_cons]; simp [opWeight]; exact ih
  | go p _ ih => rw [weight_cons]; simp [opWeight]; omega
  | addGo p _ ih => rw [weight_cons, weight_cons]; simp [opWeight]; omega

theorem BodyTail.tail {op : Op} {r : List Op} (h : BodyTail (op :: r)) :
    (r = [] ∧ op = Op.wgDone) ∨ (BodyTail r ∧ op ≠ Op.wgDone) := by
  cases h with
  | done => left; exact ⟨rfl, rfl⟩
  | log h1 => right; exact ⟨h1, by simp⟩
  | emit fi h1 => right; exact ⟨h1, by simp⟩
  | go p h1 => right; exact ⟨h1, by simp⟩
  | addGo p h1 => right; exact ⟨BodyTail.go p h1, by simp⟩

theorem BodyTail.prepend_plain {a r : List Op}
    (ha : ∀ op ∈ a, op = Op.log ∨ ∃ fi, op = Op.emit fi) (hr : BodyTail r) :
    BodyTail (a ++ r) := by
  induction a with
  | nil => exact hr
  | cons op a ih =>
    have h1 := ih (fun o ho => ha o (List.mem_cons_of_mem _ ho))
    rcases ha op (List.mem_cons_self _ _) with h | ⟨fi, h⟩
    · subst h; exact BodyTail.log h1
    · subst h; exact BodyTail.emit fi h1

theorem weight_plain {a : List Op} (ha : ∀ op ∈ a, op = Op.log ∨ ∃ fi, op = Op.emit fi) :
    weight a = 0 := by
  induction a with
  | nil => rfl
  | cons op a ih =>
    rw [weight_cons, ih (fun o ho => ha o (List.mem_cons_of_mem _ ho))]
    rcases ha op (List.mem_cons_self _ _) with h | ⟨fi, h⟩ <;> subst h <;> simp [opWeight]

/-- A fresh loop body is a body tail and holds exactly one unit of the counter. -/
theorem loopBody_tail_weight (os : OS) (dir : Path) :
    BodyTail (loopBody os dir) ∧ weight (loopBody os dir) = 1 := by
  unfold loopBody
  cases os.ReadDir dir with
  | none => exact ⟨BodyTail.log BodyTail.done, by simp [weight, opWeight]⟩
  | some es =>
    dsimp only
    induction es with
    | nil => exact ⟨BodyTail.done, by simp [weight, opWeight]⟩
    | cons e rest ih =>
      rw [List.flatMap_cons, List.append_assoc]
      rcases entryOps_shape os dir e with ⟨_, heq⟩ | ⟨_, hplain⟩
      · rw [heq]
        refine ⟨BodyTail.addGo _ ih.1, ?_⟩
        rw [List.cons_append, List.cons_append, List.nil_append, weight_cons, weight_cons, ih.2]
        simp [opWeight]
      · exact ⟨BodyTail.prepend_plain hplain ih.1, by rw [weight_append, weight_plain hplain, ih.2]; simp⟩

theorem weights_nonneg {ws : List (List Op)} (h : ∀ ops ∈ ws, ops = [] ∨ BodyTail ops) :
    (∀ ops ∈ ws, 0 ≤ weight ops) ∧ 0 ≤ (ws.map weight).sum := by
  have h1 : ∀ ops ∈ ws, 0 ≤ weight ops := by
    intro ops ho
    rcases h ops ho with h0 | ht
    · subst h0; simp [weight]
    · have := ht.weight_pos; omega
  refine ⟨h1, ?_⟩
  apply List.sum_nonneg
  intro x hx
  obtain ⟨ops, ho, rfl⟩ := List.mem_map.1 hx
  exact h1 ops ho

theorem initState_counterInv (root : Path) : CounterInv (initState root) where
  notPanicked := rfl
  tails := by
    intro ops ho
    left
    exact List.eq_of_mem_replicate ho
  count := by simp [initState, weight]
  closing := by simp [initState]
  closerLe := by simp [initState]
  pool := by simp [initState]

theorem workers_replace {ws : List (List Op)} {w : Nat} {x : List Op} (y : List Op)
    (hw : ws[w]? = some x) (ht : ∀ ops ∈ ws, ops = [] ∨ BodyTail ops) :
    ((y = [] ∨ BodyTail y) → ∀ ops ∈ ws.set w y, ops = [] ∨ BodyTail ops) ∧
    ((ws.set w y).map weight).sum = (ws.map weight).sum - weight x + weight y ∧
    (ws.set w y).length = ws.length ∧
    weight x ≤ (ws.map weight).sum := by
  obtain ⟨l1, l2, hl, _, hset, _⟩ := split_at_index hw
  have hn1 := (@weights_nonneg l1 (fun o ho => ht o (by rw [hl]; simp [ho]))).2
  have hn2 := (@weights_nonneg l2 (fun o ho => ht o (by rw [hl]; simp [ho]))).2
  refine ⟨?_, ?_, by simp, ?_⟩
  · intro hy ops ho
    rw [hset y] at ho
    rcases List.mem_append.1 ho with h1 | h1
    · exact ht ops (by rw [hl]; simp [h1])
    · rcases List.mem_cons.1 h1 with h2 | h2
      · rw [h2]; exact hy
      · exact ht ops (by rw [hl]; simp [h2])
  · rw [hset y, hl]
    simp only [List.map_append, List.map_cons, List.sum_append, List.sum_cons]
    ring
  · rw [hl]
    simp only [List.map_append, List.map_cons, List.sum_append, List.sum_cons]
    omega

/-- Every step keeps the counter invariant; in particular no step panics. -/
theorem step_counterInv (os : OS) (s : State) (a : Action) (s1 : State)
    (hI : CounterInv s) (h : step os s a = some s1) : CounterInv s1 := by
  obtain ⟨hnp, htails, hcount, hclosing, hcle, hpool⟩ := hI
  have hsum0 := (weights_nonneg htails).2
  unfold step at h
  simp only [hnp, Bool.false_eq_true, if_false] at h
  cases a with
  | recv w =>
    simp only at h
    cases hw : s.workers[w]? with
    | none => simp [hw] at h
    | some ops =>
      cases ops with
      | cons op r => simp [hw] at h
      | nil =>
        cases hd : s.dirsChan with
        | nil => simp [hw, hd] at h
        | cons dir rest =>
          simp only [hw, hd] at h
          cases h
          obtain ⟨r1, r2, r3, _⟩ := workers_replace (loopBody os dir) hw htails
          have hb := loopBody_tail_weight os dir
          exact
            { notPanicked := rfl
              tails := r1 (Or.inr hb.1)
              count := by
                simp only [r2, hb.2, weight_nil]
                rw [hcount, hd]
                simp only [List.length_cons]
                push_cast
                ring
              closing := hclosing
              closerLe := hcle
              pool := by simp only [r3]; exact hpool }
  | exec w =>
    simp only at h
    cases hw : s.workers[w]? with
    | none => simp [hw] at h
    | some ops =>
      cases ops with
      | nil => simp [hw] at h
      | cons op r =>
        simp only [hw] at h
        have hbt : BodyTail (op :: r) := by
          rcases htails _ (List.mem_iff_getElem?.2 ⟨w, hw⟩) with h0 | h0
          · cases h0
          · exact h0
        obtain ⟨r1, r2, r3, r4⟩ := workers_replace r hw htails
        have hpos := hbt.weight_pos
        have hcpos : 1 ≤ s.counter := by rw [hcount]; omega
        have hcl0 : s.closer = 0 := by
          by_contra hne
          have := hclosing (by omega)
          omega
        have hr : r = [] ∨ BodyTail r := by
          rcases hbt.tail with ⟨h1, _⟩ | ⟨h1, _⟩
          · exact Or.inl h1
          · exact Or.inr h1
        rw [weight_cons] at r2
        cases op with
        | log =>
          simp only [applyOp] at h
          cases h
          exact
            { notPanicked := hnp
              tails := r1 hr
              count := by simp only [r2, opWeight]; rw [hcount]; ring
              closing := hclosing
              closerLe := hcle
              pool := by simp only [r3]; exact hpool }
        | wgAdd =>
          simp only [applyOp] at h
          cases h
          exact
            { notPanicked := hnp
              tails := r1 hr
              count := by simp only [r2, opWeight]; rw [hcount]; ring
              closing := by intro hc; simp only at hc; omega
              closerLe := hcle
              pool := by simp only [r3]; exact hpool }
        | go p =>
          simp only [applyOp] at h
          cases h
          exact
            { notPanicked := hnp
              tails := r1 hr
              count := by
                simp only [r2, opWeight, List.length_append, List.length_singleton]
                rw [hcount]
                push_cast
                ring
              closing := hclosing
              closerLe := hcle
              pool := by simp only [r3]; exact hpool }
        | emit fi =>
          simp only [applyOp] at h
          rw [if_neg (by omega)] at h
          split_ifs at h
          · cases h
            exact
              { notPanicked := hnp
                tails := r1 hr
                count := by simp only [r2, opWeight]; rw [hcount]; ring
                closing := hclosing
                closerLe := hcle
                pool := by simp only [r3]; exact hpool }
        | wgDone =>
          simp only [applyOp] at h
          rw [if_neg (by omega)] at h
          cases h
          exact
            { notPanicked := hnp
              tails := r1 hr
              count := by simp only [r2, opWeight]; rw [hcount]; ring
              closing := by intro hc; simp only at hc; omega
              closerLe := hcle
              pool := by simp only [r3]; exact hpool }
  | send k =>
    simp only at h
    cases hk : s.senders[k]? with
    | none => simp [hk] at h
    | some p =>
      simp only [hk] at h
      obtain ⟨l1, l2, hl, _, _, hers⟩ := split_at_index hk
      have hlen : 1 ≤ s.senders.length := by rw [hl]; simp; omega
      have hcl : ¬ 2 ≤ s.closer := by
        intro hc
        have := hclosing (by omega)
        omega
      rw [if_neg hcl] at h
      split_ifs at h
      · cases h
        exact
          { notPanicked := rfl
            tails := htails
            count := by
              simp only [hers, List.length_append, List.length_singleton]
              rw [hcount, hl]
              simp only [List.length_append, List.length_cons]
              push_cast
              ring
            closing := hclosing
            closerLe := hcle
            pool := hpool }
  | wait =>
    simp only at h
    split_ifs at h with hc
    cases h
    exact
      { notPanicked := rfl
        tails := htails
        count := hcount
        closing := fun _ => hc.2
        closerLe := by simp
        pool := hpool }
  | closeDirs =>
    simp only at h
    split_ifs at h with hc
    cases h
    exact
      { notPanicked := rfl
        tails := htails
        count := hcount
        closing := fun _ => hclosing (by omega)
        closerLe := by simp
        pool := hpool }
  | closeResults =>
    simp only at h
    split_ifs at h with hc
    cases h
    exact
      { notPanicked := rfl
        tails := htails
        count := hcount
        closing := fun _ => hclosing (by omega)
        closerLe := by simp
        pool := hpool }
  | collect =>
    simp only at h
    cases hr : s.results with
    | nil => simp [hr] at h
    | cons fi rest =>
      simp only [hr] at h
      cases h
      exact
        { notPanicked := rfl
          tails := htails
          count := hcount
          closing := hclosing
          closerLe := hcle
          pool := hpool }

theorem reachable_counterInv {os : OS} {root : Path} {s : State} (h : Reachable os root s) :
    CounterInv s := by
  obtain ⟨acts, hrun⟩ := h
  exact run_invariant os CounterInv (fun s a s1 hI hs => step_counterInv os s a s1 hI hs)
    acts _ _ (initState_counterInv root) hrun

/-- Under the invariant the counter is zero exactly when nothing is outstanding. -/
theorem counter_zero_iff {s : State} (hI : CounterInv s) :
    s.counter = 0 ↔ (s.dirsChan = [] ∧ s.senders = [] ∧ allIdle s) := by
  obtain ⟨_, htails, hcount, _, _, _⟩ := hI
  have hnn := weights_nonneg htails
  constructor
  · intro h0
    rw [hcount] at h0
    have hs := hnn.2
    have h1 : s.dirsChan.length = 0 := by omega
    have h2 : s.senders.length = 0 := by omega
    have h3 : (s.workers.map weight).sum = 0 := by omega
    refine ⟨List.length_eq_zero.1 h1, List.length_eq_zero.1 h2, ?_⟩
    intro ops ho
    rcases htails ops ho with h | h
    · exact h
    · exfalso
      obtain ⟨w, hw⟩ := List.mem_iff_getElem?.1 ho
      have := (workers_replace [] hw htails).2.2.2
      have := h.weight_pos
      omega
  · rintro ⟨h1, h2, h3⟩
    rw [hcount, h1, h2]
    have : (s.workers.map weight).sum = 0 := by
      apply List.sum_eq_zero
      intro x hx
      obtain ⟨ops, ho, rfl⟩ := List.mem_map.1 hx
      rw [h3 ops ho]
      rfl
    simp [this]

/-! ### Claim C4 -/

/-- Claim C4 fails as stated: in the tree with one subdirectory, after worker 0 has
dequeued the root, added 1 for `sub`, started the goroutine that will send `sub` and
called `Done`, the queue is empty and no worker is mid-task, yet the counter is 1:
the child is still with its sender goroutine. -/
theorem C4_counterexample :
    (run (treeOS demoRoot oneDirTree demoDetect) (initState demoRoot)
      [Action.recv 0, Action.exec 0, Action.exec 0, Action.exec 0]).map snapshot
      = some
        { counter := 1
          dirsChan := []
          senders := [demoRoot ++ [bytesOf "sub"]]
          idle := true } := by
  decide

/-- Claim C4 (amended): in every reachable state of the traversal the counter equals
the number of queued tasks plus the number of children handed to a sender goroutine
and not yet placed on `dirsChan` plus what the busy workers hold; so it is zero if
and only if the queue is empty, no handed-over child is waiting to be enqueued, and
no worker is mid-task. The program never panics. -/
theorem C4_counter_zero_iff (os : OS) (root : Path) (s : State) (h : Reachable os root s) :
    (s.counter = 0 ↔ (s.dirsChan = [] ∧ s.senders = [] ∧ allIdle s)) ∧
    s.counter = (s.dirsChan.length : Int) + s.senders.length + (s.workers.map weight).sum ∧
    (∀ ops ∈ s.workers, ops ≠ [] → 1 ≤ weight ops) ∧
    s.panicked = false := by
  have hI := reachable_counterInv h
  refine ⟨counter_zero_iff hI, hI.count, ?_, hI.notPanicked⟩
  intro ops ho hne
  rcases hI.tails ops ho with h0 | h0
  · exact absurd h0 hne
  · exact h0.weight_pos

/-- The amended claim C4 at the state in which `sub` is with its sender goroutine. -/
theorem C4_counter_zero_iff_witness :
    Reachable (treeOS demoRoot oneDirTree demoDetect) demoRoot
        { counter := 1
          dirsChan := []
          senders := [demoRoot ++ [bytesOf "sub"]]
          workers := List.replicate numWorkers []
          results := []
          files := []
          closer := 0
          panicked := false } ∧
      ((1 : Int) = 0 ↔ (([] : List Path) = [] ∧ [demoRoot ++ [bytesOf "sub"]] = [] ∧
        allIdle
          { counter := 1
            dirsChan := []
            senders := [demoRoot ++ [bytesOf "sub"]]
            workers := List.replicate numWorkers []
            results := []
            files := []
            closer := 0
            panicked := false })) :=
  have hr : Reachable (treeOS demoRoot oneDirTree demoDetect) demoRoot
      { counter := 1
        dirsChan := []
        senders := [demoRoot ++ [bytesOf "sub"]]
        workers := List.replicate numWorkers []
        results := []
        files := []
        closer := 0
        panicked := false } :=
    ⟨[Action.recv 0, Action.exec 0, Action.exec 0, Action.exec 0], by decide⟩
  ⟨hr, (C4_counter_zero_iff _ _ _ hr).1⟩

/-! ## The operating system over a tree -/

theorem relOf_append (root rel : Path) : relOf root (root ++ rel) = some rel := by
  unfold relOf
  have hp : root.isPrefixOf (root ++ rel) = true := by
    rw [List.isPrefixOf_iff_prefix]
    exact List.prefix_append _ _
  simp [hp]

theorem relOf_some {root p rel : Path} (h : relOf root p = some rel) : p = root ++ rel := by
  unfold relOf at h
  split_ifs at h with hp
  cases h
  rw [List.isPrefixOf_iff_prefix] at hp
  obtain ⟨r, hr⟩ := hp
  rw [← hr]
  simp

theorem Listing.walk_snoc (l : Listing) (rel : Path) (n : GoString) :
    l.walk (rel ++ [n]) =
      match l.walk rel with
      | some (Node.isDir sub) => sub.child n
      | _ => none := by
  induction rel generalizing l with
  | nil =>
    simp only [List.nil_append, Listing.walk]
    cases l.child n with
    | none => rfl
    | some nd => cases nd <;> simp [Listing.walk]
  | cons m ms ih =>
    simp only [List.cons_append, Listing.walk]
    cases hc : l.child m with
    | none => simp
    | some nd =>
      cases nd with
      | isFile c => by_cases hms : ms = [] <;> simp [hms]
      | isDir sub => simp [ih sub]

theorem Listing.child_WF {l : Listing} {n : GoString} {sub : Listing}
    (h : l.child n = some (Node.isDir sub)) (hwf : l.WF) : sub.WF := by
  induction l with
  | nil => simp [Listing.child] at h
  | file m reg c rest ih =>
    simp only [Listing.child] at h
    split_ifs at h
    · cases h
    · exact ih h hwf.2
  | dir m s rest _ ih =>
    simp only [Listing.child] at h
    split_ifs at h with hm
    · cases h
      exact hwf.2.1
    · exact ih h hwf.2.2

theorem Listing.walk_WF {t : Listing} {rel : Path} {sub : Listing}
    (h : t.walk rel = some (Node.isDir sub)) (hwf : t.WF) : sub.WF := by
  induction rel generalizing t with
  | nil =>
    simp only [Listing.walk] at h
    cases h
    exact hwf
  | cons m ms ih =>
    simp only [Listing.walk] at h
    cases hc : t.child m with
    | none => simp [hc] at h
    | some nd =>
      cases nd with
      | isFile c =>
        simp only [hc] at h
        split_ifs at h
        cases h
      | isDir s =>
        simp only [hc] at h
        exact ih h (Listing.child_WF hc hwf)

theorem nodeAt_root (root : Path) (t : Listing) : nodeAt root t root = some (Node.isDir t) := by
  unfold nodeAt
  have h := relOf_append root []
  rw [List.append_nil] at h
  rw [h]
  rfl

theorem nodeAt_join {root : Path} {t : Listing} {p : Path} {l : Listing}
    (h : nodeAt root t p = some (Node.isDir l)) (n : GoString) :
    nodeAt root t (Join p n) = l.child n := by
  unfold nodeAt at h ⊢
  cases hr : relOf root p with
  | none => simp [hr] at h
  | some rel =>
    simp only [hr] at h
    have hp := relOf_some hr
    have hj : relOf root (Join p n) = some (rel ++ [n]) := by
      unfold Join
      rw [hp, List.append_assoc]
      exact relOf_append _ _
    simp only [hj]
    rw [Listing.walk_snoc, h]

theorem nodeAt_WF {root : Path} {t : Listing} {p : Path} {l : Listing}
    (h : nodeAt root t p = some (Node.isDir l)) (hwf : t.WF) : l.WF := by
  unfold nodeAt at h
  cases hr : relOf root p with
  | none => simp [hr] at h
  | some rel =>
    simp only [hr] at h
    exact Listing.walk_WF h hwf

theorem opsPaths_append (root : Path) (t : Listing) (a b : List Op) :
    opsPaths root t (a ++ b) = opsPaths root t a ++ opsPaths root t b := by
  unfold opsPaths
  rw [List.flatMap_append]

theorem opsPaths_emitRecord (root : Path) (t : Listing) (os : OS) (name : GoString) (q : Path)
    (size : ℚ) : opsPaths root t (emitRecord os name q size) = [q] := by
  unfold emitRecord opsPaths ToSlash
  by_cases h : (detectEncodingAndBinary os q).err = true
  · simp [h, opPaths]
  · simp [h, opPaths]

/-- The operations of (a tail of) a listing stand for exactly the files below it. -/
theorem entries_paths (root : Path) (t : Listing) (detect : List Nat → Option GoString)
    (p : Path) :
    ∀ l : Listing, l.WF → (∀ n ∈ l.names, nodeAt root t (Join p n) = l.child n) →
      opsPaths root t (l.entries.flatMap (entryOps (treeOS root t detect) p)) = l.allNonDirs p := by
  intro l
  induction l with
  | nil =>
    intro _ _
    rfl
  | file m reg c rest ih =>
    intro hwf hn
    have hnode : nodeAt root t (Join p m) = some (Node.isFile c) := by
      rw [hn m (by simp [Listing.names])]
      simp [Listing.child]
    have hsize : getFileSize (treeOS root t detect) (Join p m)
        = some (f64div (f64ofInt c.length) f64const1024) := by
      simp [getFileSize, treeOS, hnode]
    have hres : Resolves (treeOS root t detect) p ⟨m, false, some ⟨false⟩⟩ (Join p m) :=
      ⟨⟨false⟩, rfl, Or.inl ⟨rfl, rfl⟩⟩
    have hops := @entryOps_of_resolves _ _ ⟨m, false, some ⟨false⟩⟩ _ _ rfl hres hsize
    have hrest := ih hwf.2 (fun n hmem => by
      rw [hn n (by simp [Listing.names, hmem])]
      have hne : m ≠ n := fun heq => hwf.1 (heq ▸ hmem)
      simp [Listing.child, hne])
    simp only [Listing.entries, List.flatMap_cons, opsPaths_append, hops, opsPaths_emitRecord,
      hrest, Listing.allNonDirs]
    rfl
  | dir m sub rest _ ih =>
    intro hwf hn
    have hnode : nodeAt root t (Join p m) = some (Node.isDir sub) := by
      rw [hn m (by simp [Listing.names])]
      simp [Listing.child]
    have hops : entryOps (treeOS root t detect) p ⟨m, true, some ⟨false⟩⟩
        = [Op.wgAdd, Op.go (Join p m)] := by
      simp [entryOps]
    have hrest := ih hwf.2.2 (fun n hmem => by
      rw [hn n (by simp [Listing.names, hmem])]
      have hne : m ≠ n := fun heq => hwf.1 (heq ▸ hmem)
      simp [Listing.child, hne])
    simp only [Listing.entries, List.flatMap_cons, opsPaths_append, hops, hrest, Listing.allNonDirs]
    simp [opsPaths, opPaths, under, hnode]

/-- A fresh loop body stands for exactly the files below the dequeued directory. -/
theorem loopBody_paths (root : Path) (t : Listing) (detect : List Nat → Option GoString)
    (hwf : t.WF) (p : Path) :
    opsPaths root t (loopBody (treeOS root t detect) p) = under root t p := by
  unfold loopBody under
  cases hn : nodeAt root t p with
  | none => simp [treeOS, hn, opsPaths, opPaths]
  | some nd =>
    cases nd with
    | isFile c => simp [treeOS, hn, opsPaths, opPaths]
    | isDir l =>
      have hrd : (treeOS root t detect).ReadDir p = some l.entries := by
        simp [treeOS, hn]
      simp only [hrd, opsPaths_append]
      rw [entries_paths root t detect p l (nodeAt_WF hn hwf) (fun n _ => nodeAt_join hn n)]
      simp [opsPaths, opPaths]

/-! ## Conservation of the file paths -/

theorem opsPaths_nil (root : Path) (t : Listing) : opsPaths root t [] = [] := rfl

theorem opsPaths_cons (root : Path) (t : Listing) (op : Op) (r : List Op) :
    opsPaths root t (op :: r) = opPaths root t op ++ opsPaths root t r := by
  simp [opsPaths]

/-- A step that does not panic moves file paths between the parts of the state and
neither loses nor duplicates one. -/
theorem step_outstanding (root : Path) (t : Listing) (detect : List Nat → Option GoString)
    (hwf : t.WF) (s : State) (a : Action) (s1 : State)
    (h : step (treeOS root t detect) s a = some s1) (hnp : s1.panicked = false) :
    outstanding root t s1 = outstanding root t s := by
  have hpan : s.panicked = false := by
    cases hp : s.panicked with
    | false => rfl
    | true => simp [step, hp] at h
  unfold step at h
  simp only [hpan, Bool.false_eq_true, if_false] at h
  cases a with
  | recv w =>
    simp only at h
    cases hw : s.workers[w]? with
    | none => simp [hw] at h
    | some ops =>
      cases ops with
      | cons op r => simp [hw] at h
      | nil =>
        cases hd : s.dirsChan with
        | nil => simp [hw, hd] at h
        | cons dir rest =>
          simp only [hw, hd] at h
          cases h
          obtain ⟨l1, l2, hl, _, hset, _⟩ := split_at_index hw
          simp only [outstanding, hset]
          simp only [hd, hl, List.flatMap_append, List.flatMap_cons,
            ← Multiset.coe_add, opsPaths_nil, loopBody_paths root t detect hwf, List.nil_append]
          abel
  | exec w =>
    simp only at h
    cases hw : s.workers[w]? with
    | none => simp [hw] at h
    | some ops =>
      cases ops with
      | nil => simp [hw] at h
      | cons op r =>
        simp only [hw] at h
        obtain ⟨l1, l2, hl, _, hset, _⟩ := split_at_index hw
        cases op with
        | log =>
          simp only [applyOp] at h
          cases h
          simp only [outstanding, hset]
          simp only [hl, List.flatMap_append, List.flatMap_cons,
            ← Multiset.coe_add, opsPaths_cons, opPaths, List.nil_append]
        | wgAdd =>
          simp only [applyOp] at h
          cases h
          simp only [outstanding, hset]
          simp only [hl, List.flatMap_append, List.flatMap_cons,
            ← Multiset.coe_add, opsPaths_cons, opPaths, List.nil_append]
        | go q =>
          simp only [applyOp] at h
          cases h
          simp only [outstanding, hset]
          simp only [hl, List.flatMap_append, List.flatMap_cons,
            ← Multiset.coe_add, opsPaths_cons, opPaths, List.flatMap_nil, List.append_nil]
          abel
        | emit fi =>
          simp only [applyOp] at h
          split_ifs at h
          · cases h
            simp at hnp
          · cases h
            simp only [outstanding, hset]
            simp only [hl, List.flatMap_append, List.flatMap_cons,
              ← Multiset.coe_add, opsPaths_cons, opPaths, List.map_append, List.map_cons,
              List.map_nil]
            abel
        | wgDone =>
          simp only [applyOp] at h
          split_ifs at h
          · cases h
            simp at hnp
          · cases h
            simp only [outstanding, hset]
            simp only [hl, List.flatMap_append, List.flatMap_cons,
              ← Multiset.coe_add, opsPaths_cons, opPaths, List.nil_append]
  | send k =>
    simp only at h
    cases hk : s.senders[k]? with
    | none => simp [hk] at h
    | some q =>
      simp only [hk] at h
      obtain ⟨l1, l2, hl, _, _, hers⟩ := split_at_index hk
      split_ifs at h
      · cases h
        simp at hnp
      · cases h
        simp only [outstanding, hers]
        simp only [hl, List.flatMap_append, List.flatMap_cons,
          ← Multiset.coe_add, List.flatMap_nil, List.append_nil]
        abel
  | wait =>
    simp only at h
    split_ifs at h
    cases h
    rfl
  | closeDirs =>
    simp only at h
    split_ifs at h
    cases h
    rfl
  | closeResults =>
    simp only at h
    split_ifs at h
    cases h
    rfl
  | collect =>
    simp only at h
    cases hr : s.results with
    | nil => simp [hr] at h
    | cons fi rest =>
      simp only [hr] at h
      cases h
      simp only [outstanding, hr, List.map_append, List.map_cons, List.map_nil,
        ← Multiset.coe_add]
      rw [← List.singleton_append (l := List.map (fun fi => fi.Path) rest), ← Multiset.coe_add]
      abel

theorem initState_outstanding (root : Path) (t : Listing) :
    outstanding root t (initState root) = ↑(t.allNonDirs root) := by
  have hw : (List.replicate numWorkers ([] : List Op)).flatMap (opsPaths root t) = [] := by
    rw [List.flatMap_eq_nil_iff]
    intro ops ho
    rw [List.eq_of_mem_replicate ho]
    rfl
  simp [outstanding, initState, hw, under, nodeAt_root]

/-- In every reachable state over a well-formed tree the counter invariant holds and
the state accounts for exactly the non-directory entries of the tree. -/
theorem reachable_outstanding (root : Path) (t : Listing) (detect : List Nat → Option GoString)
    (hwf : t.WF) {s : State} (h : Reachable (treeOS root t detect) root s) :
    CounterInv s ∧ outstanding root t s = ↑(t.allNonDirs root) := by
  obtain ⟨acts, hrun⟩ := h
  refine run_invariant (treeOS root t detect)
    (fun s => CounterInv s ∧ outstanding root t s = ↑(t.allNonDirs root)) ?_ acts _ _
    ⟨initState_counterInv root, initState_outstanding root t⟩ hrun
  intro s a s1 hP hs
  have hI1 := step_counterInv _ s a s1 hP.1 hs
  exact ⟨hI1, by rw [step_outstanding root t detect hwf s a s1 hs hI1.notPanicked, hP.2]⟩

theorem Listing.mem_allNonDirs {l : Listing} {d q : Path} (h : q ∈ l.allNonDirs d) :
    ∃ m ∈ l.names, ∃ tl, q = d ++ m :: tl := by
  induction l generalizing d with
  | nil => simp [Listing.allNonDirs] at h
  | file n reg c rest ih =>
    simp only [Listing.allNonDirs, List.mem_cons] at h
    rcases h with h | h
    · exact ⟨n, by simp [Listing.names], [], by rw [h]; rfl⟩
    · obtain ⟨m, hm, tl, hq⟩ := ih h
      exact ⟨m, by simp [Listing.names, hm], tl, hq⟩
  | dir n sub rest ihs ihr =>
    simp only [Listing.allNonDirs, List.mem_append] at h
    rcases h with h | h
    · obtain ⟨m, _, tl, hq⟩ := ihs h
      exact ⟨n, by simp [Listing.names], m :: tl, by rw [hq]; simp [Join]⟩
    · obtain ⟨m, hm, tl, hq⟩ := ihr h
      exact ⟨m, by simp [Listing.names, hm], tl, hq⟩

/-- The files of a well-formed tree have pairwise different paths. -/
theorem Listing.allNonDirs_nodup {l : Listing} (hwf : l.WF) (d : Path) : (l.allNonDirs d).Nodup := by
  induction l generalizing d with
  | nil => simp [Listing.allNonDirs]
  | file n reg c rest ih =>
    simp only [Listing.allNonDirs, List.nodup_cons]
    refine ⟨?_, ih hwf.2 d⟩
    intro hmem
    obtain ⟨m, hm, tl, hq⟩ := Listing.mem_allNonDirs hmem
    have h1 := hq
    simp only [Join, List.append_cancel_left_eq, List.cons.injEq] at h1
    exact hwf.1 (h1.1 ▸ hm)
  | dir n sub rest ihs ihr =>
    simp only [Listing.allNonDirs]
    rw [List.nodup_append]
    refine ⟨ihs hwf.2.1 _, ihr hwf.2.2 d, ?_⟩
    intro q hq1 hq2
    obtain ⟨m1, _, tl1, h1⟩ := Listing.mem_allNonDirs hq1
    obtain ⟨m2, hm2, tl2, h2⟩ := Listing.mem_allNonDirs hq2
    have h3 : d ++ n :: m1 :: tl1 = d ++ m2 :: tl2 := by
      rw [← h2, h1]
      simp [Join]
    simp only [List.append_cancel_left_eq, List.cons.injEq] at h3
    exact hwf.1 (h3.1 ▸ hm2)

/-! ## Progress -/

/-- No deadlock: from a state that satisfies the counter invariant some goroutine
can take a step, unless `main` has left its collecting loop. -/
theorem exists_step (os : OS) {s : State} (hI : CounterInv s) (hnd : ¬ mainDone s) :
    ∃ a s1, step os s a = some s1 := by
  have hnp := hI.notPanicked
  have key : ∀ a, (step os s a).isSome = true → ∃ a s1, step os s a = some s1 :=
    fun a h => ⟨a, Option.isSome_iff_exists.1 h⟩
  cases hres : s.results with
  | cons fi rest =>
    exact key (Action.collect) (by simp [step, hnp, hres])
  | nil =>
    by_cases hc : s.counter = 0
    · have hcl := hI.closerLe
      have hne : s.closer ≠ 3 := fun h3 => hnd ⟨h3, hres⟩
      rcases Nat.lt_or_ge s.closer 1 with h0 | h1
      · exact key (Action.wait) (by simp [step, hnp, hc, (by omega : s.closer = 0)])
      · rcases Nat.lt_or_ge s.closer 2 with h1' | h2
        · exact key (Action.closeDirs) (by simp [step, hnp, (by omega : s.closer = 1)])
        · exact key (Action.closeResults) (by simp [step, hnp, (by omega : s.closer = 2)])
    · have hcl0 : s.closer = 0 := by
        by_contra hne
        exact hc (hI.closing (by omega))
      by_cases hidle : allIdle s
      · cases hd : s.dirsChan with
        | cons dir rest =>
          have hlen : 0 < s.workers.length := by rw [hI.pool]; decide
          have hw : s.workers[0]? = some [] := by
            rw [List.getElem?_eq_getElem hlen]
            rw [hidle _ (List.getElem_mem hlen)]
          exact key (Action.recv 0) (by simp [step, hnp, hw, hd])
        | nil =>
          cases hs : s.senders with
          | nil => exact absurd ((counter_zero_iff hI).2 ⟨hd, hs, hidle⟩) hc
          | cons q rest =>
            exact key (Action.send 0) (by simp [step, hnp, hs, hcl0, hd, chanCap])
      · unfold allIdle at hidle
        push_neg at hidle
        obtain ⟨ops, ho, hne⟩ := hidle
        obtain ⟨w, hw⟩ := List.mem_iff_getElem?.1 ho
        cases ops with
        | nil => exact absurd rfl hne
        | cons op r =>
          have happ : (applyOp s op).isSome = true := by
            cases op with
            | log => rfl
            | wgAdd => rfl
            | go q => rfl
            | emit fi => simp [applyOp, hcl0, hres, chanCap]
            | wgDone =>
              by_cases hneg : s.counter - 1 < 0
              · simp only [applyOp, if_pos hneg, Option.isSome_some]
              · simp only [applyOp, if_neg hneg, Option.isSome_some]
          obtain ⟨s2, hs2⟩ := Option.isSome_iff_exists.1 happ
          exact key (Action.exec w) (by simp [step, hnp, hw, hs2])

theorem opsCost_cons (root : Path) (t : Listing) (op : Op) (r : List Op) :
    opsCost root t (op :: r) = opCost root t op + opsCost root t r := by
  simp [opsCost]

theorem opsCost_append (root : Path) (t : Listing) (a b : List Op) :
    opsCost root t (a ++ b) = opsCost root t a + opsCost root t b := by
  simp [opsCost]

theorem opsCost_emitRecord (root : Path) (t : Listing) (os : OS) (name : GoString) (q : Path)
    (size : ℚ) : opsCost root t (emitRecord os name q size) ≤ 3 := by
  unfold emitRecord opsCost
  by_cases h : (detectEncodingAndBinary os q).err = true
  · simp [h, opCost]
  · simp [h, opCost]

/-- The operations of (a tail of) a listing cost at most the bound of the listing. -/
theorem entries_cost (root : Path) (t : Listing) (detect : List Nat → Option GoString)
    (p : Path) :
    ∀ l : Listing, l.WF → (∀ n ∈ l.names, nodeAt root t (Join p n) = l.child n) →
      opsCost root t (l.entries.flatMap (entryOps (treeOS root t detect) p)) + 1 ≤ l.work := by
  intro l
  induction l with
  | nil =>
    intro _ _
    simp [Listing.entries, Listing.work, opsCost]
  | file m reg c rest ih =>
    intro hwf hn
    have hnode : nodeAt root t (Join p m) = some (Node.isFile c) := by
      rw [hn m (by simp [Listing.names])]
      simp [Listing.child]
    have hsize : getFileSize (treeOS root t detect) (Join p m)
        = some (f64div (f64ofInt c.length) f64const1024) := by
      simp [getFileSize, treeOS, hnode]
    have hres : Resolves (treeOS root t detect) p ⟨m, false, some ⟨false⟩⟩ (Join p m) :=
      ⟨⟨false⟩, rfl, Or.inl ⟨rfl, rfl⟩⟩
    have hops := @entryOps_of_resolves _ _ ⟨m, false, some ⟨false⟩⟩ _ _ rfl hres hsize
    have hrest := ih hwf.2 (fun n hmem => by
      rw [hn n (by simp [Listing.names, hmem])]
      have hne : m ≠ n := fun heq => hwf.1 (heq ▸ hmem)
      simp [Listing.child, hne])
    have hrec := opsCost_emitRecord root t (treeOS root t detect) m (Join p m)
      (f64div (f64ofInt c.length) f64const1024)
    simp only [Listing.entries, List.flatMap_cons, opsCost_append, hops, Listing.work]
    omega
  | dir m sub rest _ ih =>
    intro hwf hn
    have hnode : nodeAt root t (Join p m) = some (Node.isDir sub) := by
      rw [hn m (by simp [Listing.names])]
      simp [Listing.child]
    have hops : entryOps (treeOS root t detect) p ⟨m, true, some ⟨false⟩⟩
        = [Op.wgAdd, Op.go (Join p m)] := by
      simp [entryOps]
    have hrest := ih hwf.2.2 (fun n hmem => by
      rw [hn n (by simp [Listing.names, hmem])]
      have hne : m ≠ n := fun heq => hwf.1 (heq ▸ hmem)
      simp [Listing.child, hne])
    have hgo : opsCost root t [Op.wgAdd, Op.go (Join p m)] = 4 + sub.work := by
      simp [opsCost, opCost, workUnder, hnode]
      ring
    simp only [Listing.entries, List.flatMap_cons, opsCost_append, hops, hgo, Listing.work]
    omega

theorem loopBody_cost (root : Path) (t : Listing) (detect : List Nat → Option GoString)
    (hwf : t.WF) (p : Path) :
    opsCost root t (loopBody (treeOS root t detect) p) ≤ workUnder root t p := by
  unfold loopBody workUnder
  cases hn : nodeAt root t p with
  | none => simp [treeOS, hn, opsCost, opCost]
  | some nd =>
    cases nd with
    | isFile c => simp [treeOS, hn, opsCost, opCost]
    | isDir l =>
      have hrd : (treeOS root t detect).ReadDir p = some l.entries := by
        simp [treeOS, hn]
      have h := entries_cost root t detect p l (nodeAt_WF hn hwf) (fun n _ => nodeAt_join hn n)
      simp only [hrd, opsCost_append]
      have hd : opsCost root t [Op.wgDone] = 1 := by simp [opsCost, opCost]
      rw [hd]
      exact h

/-- Every step that does not panic uses up at least one unit of the bound. -/
theorem step_stepsLeft (root : Path) (t : Listing) (detect : List Nat → Option GoString)
    (hwf : t.WF) (s : State) (a : Action) (s1 : State)
    (h : step (treeOS root t detect) s a = some s1) (hnp : s1.panicked = false) :
    stepsLeft root t s1 + 1 ≤ stepsLeft root t s := by
  have hpan : s.panicked = false := by
    cases hp : s.panicked with
    | false => rfl
    | true => simp [step, hp] at h
  unfold step at h
  simp only [hpan, Bool.false_eq_true, if_false] at h
  cases a with
  | recv w =>
    simp only at h
    cases hw : s.workers[w]? with
    | none => simp [hw] at h
    | some ops =>
      cases ops with
      | cons op r => simp [hw] at h
      | nil =>
        cases hd : s.dirsChan with
        | nil => simp [hw, hd] at h
        | cons dir rest =>
          simp only [hw, hd] at h
          cases h
          obtain ⟨l1, l2, hl, _, hset, _⟩ := split_at_index hw
          have hb := loopBody_cost root t detect hwf dir
          simp only [stepsLeft, hset]
          simp only [hd, hl, List.map_append, List.map_cons, List.sum_append, List.sum_cons]
          have h0 : opsCost root t [] = 0 := rfl
          rw [h0]
          omega
  | exec w =>
    simp only at h
    cases hw : s.workers[w]? with
    | none => simp [hw] at h
    | some ops =>
      cases ops with
      | nil => simp [hw] at h
      | cons op r =>
        simp only [hw] at h
        obtain ⟨l1, l2, hl, _, hset, _⟩ := split_at_index hw
        cases op with
        | log =>
          simp only [applyOp] at h
          cases h
          simp only [stepsLeft, hset]
          simp only [hl, List.map_append, List.map_cons, List.sum_append, List.sum_cons,
            opsCost_cons, opCost]
          omega
        | wgAdd =>
          simp only [applyOp] at h
          cases h
          simp only [stepsLeft, hset]
          simp only [hl, List.map_append, List.map_cons, List.sum_append, List.sum_cons,
            opsCost_cons, opCost]
          omega
        | go q =>
          simp only [applyOp] at h
          cases h
          simp only [stepsLeft, hset]
          simp only [hl, List.map_append, List.map_cons, List.sum_append, List.sum_cons,
            opsCost_cons, opCost, List.map_nil, List.sum_nil]
          omega
        | emit fi =>
          simp only [applyOp] at h
          split_ifs at h
          · cases h
            simp at hnp
          · cases h
            simp only [stepsLeft, hset]
            simp only [hl, List.map_append, List.map_cons, List.sum_append, List.sum_cons,
              opsCost_cons, opCost, List.length_append, List.length_singleton]
            omega
        | wgDone =>
          simp only [applyOp] at h
          split_ifs at h
          · cases h
            simp at hnp
          · cases h
            simp only [stepsLeft, hset]
            simp only [hl, List.map_append, List.map_cons, List.sum_append, List.sum_cons,
              opsCost_cons, opCost]
            omega
  | send k =>
    simp only at h
    cases hk : s.senders[k]? with
    | none => simp [hk] at h
    | some q =>
      simp only [hk] at h
      obtain ⟨l1, l2, hl, _, _, hers⟩ := split_at_index hk
      split_ifs at h
      · cases h
        simp at hnp
      · cases h
        simp only [stepsLeft, hers]
        simp only [hl, List.map_append, List.map_cons, List.sum_append, List.sum_cons,
          List.map_nil, List.sum_nil]
        omega
  | wait =>
    simp only at h
    split_ifs at h with hc
    cases h
    simp only [stepsLeft, hc.1]
    omega
  | closeDirs =>
    simp only at h
    split_ifs at h with hc
    cases h
    simp only [stepsLeft, hc]
    omega
  | closeResults =>
    simp only at h
    split_ifs at h with hc
    cases h
    simp only [stepsLeft, hc]
    omega
  | collect =>
    simp only at h
    cases hr : s.results with
    | nil => simp [hr] at h
    | cons fi rest =>
      simp only [hr] at h
      cases h
      simp only [stepsLeft, hr, List.length_cons]
      omega

/-- Every schedule is finite: its length plus the bound of the state it reaches is at
most the bound of the state it starts from. -/
theorem run_length_le (root : Path) (t : Listing) (detect : List Nat → Option GoString)
    (hwf : t.WF) :
    ∀ acts s s1, CounterInv s → run (treeOS root t detect) s acts = some s1 →
      acts.length + stepsLeft root t s1 ≤ stepsLeft root t s := by
  intro acts
  induction acts with
  | nil =>
    intro s s1 _ h
    simp [run] at h
    subst h
    simp
  | cons a rest ih =>
    intro s s1 hI h
    unfold run at h
    cases hs : step (treeOS root t detect) s a with
    | none => simp [hs] at h
    | some s2 =>
      simp only [hs] at h
      have hI2 := step_counterInv _ s a s2 hI hs
      have h1 := step_stepsLeft root t detect hwf s a s2 hs hI2.notPanicked
      have h2 := ih s2 s1 hI2 h
      simp only [List.length_cons]
      omega

theorem initState_stepsLeft (root : Path) (t : Listing) :
    stepsLeft root t (initState root) = t.work + 4 := by
  have hw : ((List.replicate numWorkers ([] : List Op)).map (opsCost root t)).sum = 0 := by
    rw [List.map_replicate, List.sum_replicate]
    simp [opsCost]
  have hu : workUnder root t root = t.work := by
    unfold workUnder
    rw [nodeAt_root]
  simp only [stepsLeft, initState, hw, List.map_cons, List.map_nil, List.sum_cons, List.sum_nil,
    hu, List.length_nil]
  omega

/-! ### Claim C1 -/

/-- On a tree whose non-directory entries are all regular files, the non-directory
entries are the regular files. -/
theorem Listing.allNonDirs_eq_allFiles {l : Listing} (h : l.onlyRegular) (d : Path) :
    l.allNonDirs d = l.allFiles d := by
  induction l generalizing d with
  | nil => rfl
  | file n reg c rest ih =>
    simp only [Listing.allNonDirs, Listing.allFiles, h.1, if_true, ih h.2 d]
  | dir n sub rest ihs ihr =>
    simp only [Listing.allNonDirs, Listing.allFiles, ihs h.1 _, ihr h.2 d]

/-- Claim C1 fails as stated: `/srv` holds the regular file `a.txt` and the device
node `null`; no symlink is involved and every listing, stat and read succeeds. The
worker tests only `IsDir` and the symlink bit, so after a complete run `main` has
collected the path of `null` as well, which is not the path of a regular file. -/
theorem C1_counterexample :
    (run (treeOS demoRoot deviceTree demoDetect) (initState demoRoot) deviceSchedule).map outcome
      = some (true, [demoRoot ++ [bytesOf "a.txt"], demoRoot ++ [bytesOf "null"]]) ∧
    deviceTree.allFiles demoRoot = [demoRoot ++ [bytesOf "a.txt"]] ∧
    demoRoot ++ [bytesOf "null"] ∉ deviceTree.allFiles demoRoot := by
  decide

/-- Claim C1 (amended): over a finite tree without symlinks in which sibling names
are distinct and every listing, stat and read succeeds, for every schedule of the
goroutines: the program never panics; once `main` has left its loop over the closed
`results` channel, the `Path` fields it collected are, up to order, exactly the paths
of the non-directory entries reachable from the root (regular files and also device
nodes, pipes and sockets), none twice; these are exactly the regular files when the
tree has no other non-directory entry; as long as `main` has not left that loop some
goroutine can step; and no schedule is longer than a bound that depends on the tree
only, so every run ends with that result. -/
theorem C1_traversal_output (root : Path) (t : Listing) (detect : List Nat → Option GoString)
    (hwf : t.WF) (acts : List Action) (s : State)
    (hrun : run (treeOS root t detect) (initState root) acts = some s) :
    s.panicked = false ∧
    (mainDone s →
      (s.files.map (fun fi => fi.Path)).Perm (t.allNonDirs root) ∧
      (s.files.map (fun fi => fi.Path)).Nodup) ∧
    (t.onlyRegular → t.allNonDirs root = t.allFiles root) ∧
    (¬ mainDone s → ∃ a s1, step (treeOS root t detect) s a = some s1) ∧
    acts.length ≤ t.work + 4 := by
  obtain ⟨hI, hout⟩ := reachable_outstanding root t detect hwf ⟨acts, hrun⟩
  refine ⟨hI.notPanicked, ?_, fun hr => Listing.allNonDirs_eq_allFiles hr root,
    fun hnd => exists_step _ hI hnd, ?_⟩
  · rintro ⟨hcl, hres⟩
    have hc : s.counter = 0 := hI.closing (by omega)
    obtain ⟨hd, hs, hidle⟩ := (counter_zero_iff hI).1 hc
    have hw : s.workers.flatMap (opsPaths root t) = [] := by
      rw [List.flatMap_eq_nil_iff]
      intro ops ho
      rw [hidle ops ho]
      rfl
    simp only [outstanding, hres, hd, hs, hw, List.map_nil, List.flatMap_nil, Multiset.coe_nil,
      add_zero] at hout
    have hperm : (s.files.map (fun fi => fi.Path)).Perm (t.allNonDirs root) :=
      Multiset.coe_eq_coe.1 hout
    exact ⟨hperm, hperm.nodup_iff.2 (Listing.allNonDirs_nodup hwf root)⟩
  · have h := run_length_le root t detect hwf acts _ s (initState_counterInv root) hrun
    rw [initState_stepsLeft] at h
    omega

/-- The amended claim C1 at a complete schedule on the concrete tree. -/
theorem C1_traversal_output_witness :
    ∃ s, run demoOS (initState demoRoot) demoSchedule = some s ∧ mainDone s ∧
      (s.files.map (fun fi => fi.Path)).Perm (demoTree.allNonDirs demoRoot) ∧
      (s.files.map (fun fi => fi.Path)).Nodup := by
  have hsome : (run demoOS (initState demoRoot) demoSchedule).isSome = true := by decide
  obtain ⟨s, hs⟩ := Option.isSome_iff_exists.1 hsome
  have hout : ((run demoOS (initState demoRoot) demoSchedule).map outcome).map Prod.fst
      = some true := by decide
  have hwf : demoTree.WF := by
    simp only [demoTree, Listing.WF, Listing.names]
    decide
  have hdone : mainDone s := by
    rw [hs] at hout
    simp [outcome] at hout
    exact ⟨hout.1, hout.2⟩
  exact ⟨s, hs, hdone, (C1_traversal_output demoRoot demoTree demoDetect hwf demoSchedule s hs).2.1
    hdone⟩

end FileWise
